import Mathlib

/-!
# Parser-combinator engine `pp` : shallow embedding of `src/pp.c`

Modelling conventions.

* A C `char` is a byte, modelled as a `Nat`.  A `const char*` is modelled as the
  list of bytes it points at; every read at or after the end of the list
  yields the terminator `0`.  A well-formed C string has no `0` among its
  bytes; the C library functions below stop at the first `0` exactly as the C
  ones do, so they are also defined on lists that contain one.
* `input + k` is `input.drop k`; a pointer into the input is recorded as its
  offset `k` from `input` (`rest` of a result), `NULL` as `Option.none`.
* `int` positions are natural numbers (inputs are shorter than `2^31` bytes).
* Allocation through the sweeper is assumed to succeed.  The scratch buffer of
  `Sequence` is a list.  The scratch buffer of `Many` is a list together with
  the capacity of its `malloc`ed block; sizes of objects are those of LP64.
* `parse` recurses through the parser graph and loops in `Many`; the model
  takes a fuel argument that bounds both.  `Option.none` stands for "no result
  within this fuel", for a store past the end of the scratch buffer of `Many`,
  or, under `PP_OP_MAP`, for a transform that has no defined result.
-/

/-! ## C library functions used by `pp.c` -/

/-- The byte `s[i]` of a NUL-terminated buffer. -/
def byteAt (s : List Nat) (i : Nat) : Nat := s.getD i 0

/-- C `strlen`: number of bytes before the first NUL. -/
def strlen : List Nat → Nat
  | [] => 0
  | c :: cs => if c = 0 then 0 else strlen cs + 1

/-- C `strncmp`: difference of the first pair of differing bytes among the
first `n`, comparison stops after a NUL; `0` when there is none. -/
def strncmp : List Nat → List Nat → Nat → Int
  | _, _, 0 => 0
  | s1, s2, n + 1 =>
    if s1.headD 0 ≠ s2.headD 0 then (s1.headD 0 : Int) - (s2.headD 0 : Int)
    else if s1.headD 0 = 0 then 0
    else strncmp s1.tail s2.tail n

/-- C `tolower` in the "C" locale. -/
def tolower (c : Nat) : Nat := if 65 ≤ c ∧ c ≤ 90 then c + 32 else c

/-- C `strncasecmp`: as `strncmp`, on the lower-cased bytes. -/
def strncasecmp : List Nat → List Nat → Nat → Int
  | _, _, 0 => 0
  | s1, s2, n + 1 =>
    if tolower (s1.headD 0) ≠ tolower (s2.headD 0) then
      (tolower (s1.headD 0) : Int) - (tolower (s2.headD 0) : Int)
    else if s1.headD 0 = 0 then 0
    else strncasecmp s1.tail s2.tail n

/-- C `strchr`: offset of the first occurrence of `c` in `s`, the terminating
NUL being part of the string; `Option.none` is the `NULL` result. -/
def strchr : List Nat → Nat → Option Nat
  | [], c => if c = 0 then some 0 else Option.none
  | x :: xs, c =>
    if x = c then some 0
    else if x = 0 then Option.none
    else (strchr xs c).map (· + 1)

/-! ## Data model (`src/pp.h`) -/

/-- Parse state: the input and a byte offset. -/
structure pp_state_t where
  input : List Nat
  pos : Nat

/-- Status of a result. -/
inductive pp_status_t where
  | PP_OK
  | PP_ERROR_UNEXPECTED_TOK
  | PP_ERROR_UNKNOWN_OP
  deriving DecidableEq, Repr

/-- Tagged output value. -/
inductive pp_output_t where
  | PP_OUTPUT_NONE
  | PP_OUTPUT_CHAR (chr : Nat)
  | PP_OUTPUT_STRING (string : List Nat)
  | PP_OUTPUT_ARRAY (values : List pp_output_t)

/-- Parse result; `rest` is the offset of the `rest` pointer from `input`. -/
structure pp_result_t where
  pos : Nat
  status : pp_status_t
  output : pp_output_t
  rest : Option Nat

/-- Parser node: the operation tag together with the data it uses.  The
transform of a `PP_OP_MAP` node is a function on outputs (its context argument
already applied); the observer of a `PP_OP_TAP` node only writes through a
caller-supplied reference and is not part of the result. -/
inductive pp_parser_t where
  | PP_OP_PURE
  | PP_OP_FAIL
  | PP_OP_EOF
  | PP_OP_EXPECT (c : Nat)
  | PP_OP_SELECT
  | PP_OP_CHAR (c : Nat)
  | PP_OP_STRING (string : List Nat)
  | PP_OP_STRING_NO_CASE (string : List Nat)
  | PP_OP_ANY_OF (chars : List Nat)
  | PP_OP_NONE_OF (chars : List Nat)
  | PP_OP_OPTIONAL (parser : pp_parser_t)
  | PP_OP_CHOICE (parsers : List pp_parser_t)
  | PP_OP_MANY (parser : pp_parser_t)
  | PP_OP_SEQUENCE (parsers : List pp_parser_t)
  | PP_OP_MAP (parser : pp_parser_t) (map : pp_output_t → Option pp_output_t)
  | PP_OP_TAP (parser : pp_parser_t)

open pp_status_t pp_output_t pp_parser_t

/-! ## Allocation helpers and result builders (`src/pp.c`) -/

/-- `pp_strdup`: copy of the bytes of `str` up to its terminator. -/
def pp_strdup (str : List Nat) : List Nat := str.takeWhile (fun c => c != 0)

/-- `pp_strndup`: `strncpy` of `len` bytes followed by a terminator. -/
def pp_strndup (str : List Nat) (len : Nat) : List Nat :=
  (str.take len).takeWhile (fun c => c != 0)

/-- Builder `none()`. -/
def pp.none : pp_output_t := PP_OUTPUT_NONE

/-- Builder `chr(c)`. -/
def pp.chr (chr : Nat) : pp_output_t := PP_OUTPUT_CHAR chr

/-- Builder `string(len, s)`. -/
def pp.string (len : Nat) (string : List Nat) : pp_output_t :=
  PP_OUTPUT_STRING (pp_strndup string len)

/-- Builder `array(len, values)`. -/
def pp.array (len : Nat) (values : List pp_output_t) : pp_output_t :=
  PP_OUTPUT_ARRAY (values.take len)

/-- Builder `ok(pos, output, rest)`. -/
def pp.ok (pos : Nat) (output : pp_output_t) (rest : Nat) : pp_result_t :=
  { pos := pos, status := PP_OK, output := output, rest := some rest }

/-- Builder `err(pos, status)`: the other members are zero-initialised. -/
def pp.err (pos : Nat) (status : pp_status_t) : pp_result_t :=
  { pos := pos, status := status, output := PP_OUTPUT_NONE, rest := Option.none }

/-- `pp_init_state`. -/
def pp_init_state (input : List Nat) (pos : Nat) : pp_state_t :=
  { input := input, pos := pos }

/-! ## Constructors -/

/-- `pp_pure`. -/
def pp_pure : pp_parser_t := PP_OP_PURE

/-- `pp_fail`. -/
def pp_fail : pp_parser_t := PP_OP_FAIL

/-- `pp_eof`. -/
def pp_eof : pp_parser_t := PP_OP_EOF

/-- `pp_expect`. -/
def pp_expect (c : Nat) : pp_parser_t := PP_OP_EXPECT c

/-- `pp_string`. -/
def pp_string (tag : List Nat) : pp_parser_t := PP_OP_STRING (pp_strdup tag)

/-- `pp_string_no_case`. -/
def pp_string_no_case (tag : List Nat) : pp_parser_t :=
  PP_OP_STRING_NO_CASE (pp_strdup tag)

/-- `pp_any_of`. -/
def pp_any_of (chars : List Nat) : pp_parser_t := PP_OP_ANY_OF (pp_strdup chars)

/-- `pp_none_of`. -/
def pp_none_of (chars : List Nat) : pp_parser_t := PP_OP_NONE_OF (pp_strdup chars)

/-- `pp_optional`. -/
def pp_optional (parser : pp_parser_t) : pp_parser_t := PP_OP_OPTIONAL parser

/-- `pp_choice`. -/
def pp_choice (parsers : List pp_parser_t) : pp_parser_t := PP_OP_CHOICE parsers

/-- `pp_many`. -/
def pp_many (parser : pp_parser_t) : pp_parser_t := PP_OP_MANY parser

/-- `pp_sequence`. -/
def pp_sequence (parsers : List pp_parser_t) : pp_parser_t := PP_OP_SEQUENCE parsers

/-- `pp_map`. -/
def pp_map (parser : pp_parser_t) (map : pp_output_t → Option pp_output_t) : pp_parser_t :=
  PP_OP_MAP parser map

/-- `pp_tap`. -/
def pp_tap (parser : pp_parser_t) : pp_parser_t := PP_OP_TAP parser

/-! ## The evaluator -/

/-- Loop of `PP_OP_CHOICE`: every child is run on the same `state`; the first
result with status `PP_OK` is returned; after the loop the switch is left and
the function returns `err(pos, PP_ERROR_UNEXPECTED_TOK)`. -/
def pp.choice_loop (run : pp_parser_t → pp_state_t → Option pp_result_t)
    (state : pp_state_t) : List pp_parser_t → Option pp_result_t
  | [] => some (pp.err state.pos PP_ERROR_UNEXPECTED_TOK)
  | p :: ps =>
    match run p state with
    | Option.none => Option.none
    | some result =>
      if result.status = PP_OK then some result else pp.choice_loop run state ps

/-- `sizeof(pp_output_t)`: the tag, padding, and a union whose largest member
is a length with a pointer (LP64). -/
def sizeof_pp_output_t : Nat := 24

/-- `sizeof(pp_output_t*)` (LP64).  With the ILP32 sizes, `12` and `4`, the
buffer of `Many` holds the same number of outputs. -/
def sizeof_pp_output_ptr : Nat := 8

/-- Value of `max_len` after the block
`if (len >= max_len) { outputs = realloc(...); max_len = max_len * 2; }`. -/
def pp.many_grow (len max_len : Nat) : Nat := if len ≥ max_len then max_len * 2 else max_len

/-- Loop of `PP_OP_MANY`: `pos` is the evolving `state.pos`, `outputs` the
contents of the scratch buffer (`len` is its length) and `max_len` the
variable of that name.  The block of the buffer has
`max_len * sizeof(pp_output_t*)` bytes, at the `malloc` and after each
`realloc`; the store `outputs[len++] = result.output` writes the bytes of one
`pp_output_t` at index `len`, and has no defined result (`Option.none`) when
they do not lie in the block.  The result is the final `state.pos` and the
outputs. -/
def pp.many_loop (run : pp_state_t → Option pp_result_t) (input : List Nat)
    (input_len : Nat) : Nat → Nat → Nat → List pp_output_t → Option (Nat × List pp_output_t)
  | 0, _, _, _ => Option.none
  | fuel + 1, pos, max_len, outputs =>
    if pos < input_len then
      match run { input := input, pos := pos } with
      | Option.none => Option.none
      | some result =>
        if result.status ≠ PP_OK then some (pos, outputs)
        else if (outputs.length + 1) * sizeof_pp_output_t
            ≤ pp.many_grow outputs.length max_len * sizeof_pp_output_ptr then
          pp.many_loop run input input_len fuel result.pos
            (pp.many_grow outputs.length max_len) (outputs ++ [result.output])
        else Option.none
    else some (pos, outputs)

/-- Loop of `PP_OP_SEQUENCE`: `pos` is the evolving `state.pos`, `outputs` the
outputs collected so far. -/
def pp.sequence_loop (run : pp_parser_t → pp_state_t → Option pp_result_t)
    (input : List Nat) : List pp_parser_t → Nat → List pp_output_t → Option pp_result_t
  | [], pos, outputs => some (pp.ok pos (pp.array outputs.length outputs) pos)
  | p :: ps, pos, outputs =>
    match run p { input := input, pos := pos } with
    | Option.none => Option.none
    | some result =>
      if result.status ≠ PP_OK then some (pp.err pos result.status)
      else pp.sequence_loop run input ps result.pos (outputs ++ [result.output])

/-- The recursive evaluator `parse(parser, state)`. -/
def pp.parse : Nat → pp_parser_t → pp_state_t → Option pp_result_t
  | 0, _, _ => Option.none
  | fuel + 1, parser, state =>
    let input := state.input
    let pos := state.pos
    let input_len := strlen input
    match parser with
    | PP_OP_PURE => some (pp.ok pos pp.none pos)
    | PP_OP_EOF =>
      if byteAt input pos = 0 then some (pp.ok pos pp.none pos)
      else some (pp.err pos PP_ERROR_UNEXPECTED_TOK)
    | PP_OP_EXPECT c =>
      if byteAt input pos = c then some (pp.ok pos pp.none (pos + 1))
      else some (pp.err pos PP_ERROR_UNEXPECTED_TOK)
    | PP_OP_CHAR c =>
      if byteAt input pos = c then
        some (pp.ok (pos + 1) (pp.chr (byteAt input pos)) (pos + 1))
      else some (pp.err pos PP_ERROR_UNEXPECTED_TOK)
    | PP_OP_STRING str =>
      let len := strlen str
      if strncmp (input.drop pos) str len = 0 then
        some (pp.ok (pos + len) (pp.string len (input.drop pos)) (pos + len))
      else some (pp.err pos PP_ERROR_UNEXPECTED_TOK)
    | PP_OP_STRING_NO_CASE str =>
      let len := strlen str
      if strncasecmp (input.drop pos) str len = 0 then
        some (pp.ok (pos + len) (pp.string len (input.drop pos)) (pos + len))
      else some (pp.err pos PP_ERROR_UNEXPECTED_TOK)
    | PP_OP_ANY_OF chars =>
      if strchr chars (byteAt input pos) ≠ Option.none then
        some (pp.ok (pos + 1) (pp.chr (byteAt input pos)) (pos + 1))
      else some (pp.err pos PP_ERROR_UNEXPECTED_TOK)
    | PP_OP_NONE_OF chars =>
      if strchr chars (byteAt input pos) = Option.none then
        some (pp.ok (pos + 1) (pp.chr (byteAt input pos)) (pos + 1))
      else some (pp.err pos PP_ERROR_UNEXPECTED_TOK)
    | PP_OP_OPTIONAL child =>
      match pp.parse fuel child state with
      | Option.none => Option.none
      | some result =>
        if result.status = PP_ERROR_UNEXPECTED_TOK then some (pp.ok pos pp.none pos)
        else some result
    | PP_OP_CHOICE parsers => pp.choice_loop (pp.parse fuel) state parsers
    | PP_OP_MANY child =>
      match pp.many_loop (pp.parse fuel child) input input_len fuel pos 4096 [] with
      | Option.none => Option.none
      | some (end_pos, outputs) =>
        some (pp.ok end_pos (pp.array outputs.length outputs) pos)
    | PP_OP_SEQUENCE parsers => pp.sequence_loop (pp.parse fuel) input parsers pos []
    | PP_OP_MAP child map =>
      match pp.parse fuel child state with
      | Option.none => Option.none
      | some result =>
        if result.status = PP_OK then
          match map result.output with
          | Option.none => Option.none
          | some output => some { result with output := output }
        else some result
    | PP_OP_TAP child => pp.parse fuel child state
    | PP_OP_FAIL => some (pp.err pos PP_ERROR_UNKNOWN_OP)
    | PP_OP_SELECT => some (pp.err pos PP_ERROR_UNKNOWN_OP)

/-- `pp_parse`: evaluation from position `0`. -/
def pp_parse (fuel : Nat) (parser : pp_parser_t) (input : List Nat) : Option pp_result_t :=
  pp.parse fuel parser (pp_init_state input 0)

/-! ## Output transforms and derived combinators (`src/pp.c`) -/

/-- Member `output.string` of an output value. -/
def pp_output_t.output_string : pp_output_t → List Nat
  | PP_OUTPUT_STRING s => s
  | _ => []

/-- Transform `skip`: retags the output as `PP_OUTPUT_NONE`. -/
def pp.skip (_ : pp_output_t) : pp_output_t := PP_OUTPUT_NONE

mutual
/-- Transform `concat_string`.  For an Array, `len` is the sum of the `strlen`
of the recursive results and `result` receives their `strcpy` one after the
other; the output is `string(len, result)`. -/
def pp.concat_string : pp_output_t → pp_output_t
  | PP_OUTPUT_NONE => pp.string 0 []
  | PP_OUTPUT_CHAR c => pp.string 1 [c]
  | PP_OUTPUT_STRING s => PP_OUTPUT_STRING s
  | PP_OUTPUT_ARRAY values =>
    pp.string ((pp.concat_string_elems values).map strlen).sum
      ((pp.concat_string_elems values).map pp_strdup).flatten
/-- The strings `concat_string(ele, NULL).output.string` of the elements of an
Array, in order. -/
def pp.concat_string_elems : List pp_output_t → List (List Nat)
  | [] => []
  | ele :: rest => (pp.concat_string ele).output_string :: pp.concat_string_elems rest
end

/-- First loop of `concat_array`: the length `len` of the flattened array. -/
def pp.concat_array_len : List pp_output_t → Nat
  | [] => 0
  | PP_OUTPUT_ARRAY vs :: rest => vs.length + pp.concat_array_len rest
  | _ :: rest => 1 + pp.concat_array_len rest

/-- Second loop of `concat_array`, `for (int i = 0; i < len;)`: the element is
read from the source array at index `i`, the index into `values`; an Array
element is copied to `values[i..]` and `i` advances by its length, any other
element is stored at `values[i]` and `i` advances by one.  `values` is the part
of the destination written so far.  `Option.none`: no result within the fuel,
or a read past the end of the source array. -/
def pp.concat_array_loop (src : List pp_output_t) (len : Nat) :
    Nat → Nat → List pp_output_t → Option (List pp_output_t)
  | 0, _, _ => Option.none
  | fuel + 1, i, values =>
    if i < len then
      match src[i]? with
      | Option.none => Option.none
      | some (PP_OUTPUT_ARRAY vs) =>
        pp.concat_array_loop src len fuel (i + vs.length) (values ++ vs)
      | some ele => pp.concat_array_loop src len fuel (i + 1) (values ++ [ele])
    else some values

/-- Transform `concat_array`.  The second loop is given fuel `len + 1`, which
is enough whenever it terminates (`concat_array_loop_fuel`). -/
def pp.concat_array (output : pp_output_t) : Option pp_output_t :=
  match output with
  | PP_OUTPUT_ARRAY src =>
    (pp.concat_array_loop src (pp.concat_array_len src) (pp.concat_array_len src + 1) 0 []).map
      (pp.array (pp.concat_array_len src))
  | _ => some output

/-- Transform `select` with context argument `arg`: element `arg` of an Array
(`Option.none` when the read is past the end of the array), any other output
unchanged. -/
def pp.select (output : pp_output_t) (arg : Nat) : Option pp_output_t :=
  match output with
  | PP_OUTPUT_ARRAY values => values[arg]?
  | _ => some output

/-- `pp_skip`. -/
def pp_skip (parser : pp_parser_t) : pp_parser_t :=
  pp_map parser (fun output => some (pp.skip output))

/-- `pp_concat_string`. -/
def pp_concat_string (parsers : List pp_parser_t) : pp_parser_t :=
  pp_map (pp_sequence parsers) (fun output => some (pp.concat_string output))

/-- `pp_concat_array`. -/
def pp_concat_array (parsers : List pp_parser_t) : pp_parser_t :=
  pp_map (pp_sequence parsers) pp.concat_array

/-- `pp_select`: the context argument handed to `select` is the constant `1`,
whatever `pos` is. -/
def pp_select (parser : pp_parser_t) (_pos : Nat) : pp_parser_t :=
  pp_map parser (fun output => pp.select output 1)

/-- `pp_whitespace`: `many` over the charset `" \t\n\r"`. -/
def pp_whitespace : pp_parser_t := pp_many (pp_any_of [32, 9, 10, 13])

/-- `pp_alpha`: charset `A..Z a..z`. -/
def pp_alpha : pp_parser_t :=
  pp_any_of ((List.range 26).map (fun k => 65 + k) ++ (List.range 26).map (fun k => 97 + k))

/-- `pp_alphanumeric_or_underscore`: charset `A..Z a..z 0..9 _`. -/
def pp_alphanumeric_or_underscore : pp_parser_t :=
  pp_any_of ((List.range 26).map (fun k => 65 + k) ++ (List.range 26).map (fun k => 97 + k)
    ++ (List.range 10).map (fun k => 48 + k) ++ [95])

/-- `pp_skip_whitespace`. -/
def pp_skip_whitespace : pp_parser_t :=
  pp_map pp_whitespace (fun output => some (pp.skip output))

/-- `pp_whitespace_delimited`. -/
def pp_whitespace_delimited (parser : pp_parser_t) : pp_parser_t :=
  pp_select (pp_sequence [pp_skip_whitespace, parser, pp_skip_whitespace]) 2

/-- `pp_separated_list`. -/
def pp_separated_list (item separator : pp_parser_t) : pp_parser_t :=
  pp_concat_array [item, pp_many (pp_select (pp_sequence [separator, item]) 0)]

/-- `pp_comma_separated_list`. -/
def pp_comma_separated_list (parser : pp_parser_t) : pp_parser_t :=
  pp_separated_list parser (pp_string [44])

/-! ## Arena allocator (`src/aa.c`, `src/aa.h`)

Pointers and `size_t` values are 64 bits wide (LP64); a request size is a
`size_t`, that is a natural number below `aa_word`.  Region sizes fit the
`int` member `region_size`, as `aa.h` declares it, and `malloc` is assumed to
succeed.

The `parent` links are the list structure of the chain (head first, `NULL`
head = empty list), and the regions of a chain are numbered from the oldest.
A region is modelled by its cursor, recorded as the number of bytes handed
out from the region: the C pointer `ptr` is `data + cursor` reduced modulo
`aa_word`.  A pointer returned by the allocator is the number of the region
and the cursor it was taken at; `aa_address` gives the address it stands
for. -/

/-- Number of values of a pointer or of a `size_t`. -/
def aa_word : Nat := 2 ^ 64

/-- `sizeof(aa_region_t)`: the pointers `parent` and `ptr` that precede the
flexible member `data`. -/
def sizeof_aa_region_t : Nat := 16

/-- Address of the block that `malloc` returns for region number `k` of a
chain: the blocks lie `2 ^ 32` bytes apart, which keeps blocks of regions
whose size fits `int` from overlapping. -/
def aa_malloc_address (k : Nat) : Nat := 2 ^ 32 * (k + 1)

/-- Address of the member `data` of region number `k`. -/
def aa_region_data (k : Nat) : Nat := aa_malloc_address k + sizeof_aa_region_t

/-- Address `data + offset` in region number `region`, as a pointer value. -/
def aa_address (region offset : Nat) : Nat := (aa_region_data region + offset) % aa_word

/-- Region, `ptr` as the number of bytes handed out from `data`. -/
structure aa_region_t where
  ptr : Nat
  deriving DecidableEq, Repr

/-- Arena: the region size and the chain starting at `head`. -/
structure aa_arena_t where
  region_size : Nat
  head : List aa_region_t
  deriving DecidableEq, Repr

/-- Non-NULL pointer returned by the allocator: `data + offset` in the region
numbered `region`. -/
structure aa_ptr_t where
  region : Nat
  offset : Nat
  deriving DecidableEq, Repr

/-- Size of the block that `init_region(parent, size)` requests: `malloc(size + 8)`. -/
def init_region_malloc_size (size : Nat) : Nat := (size + 8) % aa_word

/-- Number of bytes of `data` that lie inside the block requested by
`init_region(parent, size)`: what the block holds after the header. -/
def init_region_data_bytes (size : Nat) : Nat :=
  init_region_malloc_size size - sizeof_aa_region_t

/-- `init_region(parent, size)`: a region in a block of
`init_region_malloc_size size` bytes, with `ptr = data`, linked to `parent`. -/
def init_region (parent : List aa_region_t) (_size : Nat) : List aa_region_t :=
  { ptr := 0 } :: parent

/-- `new_region`. -/
def new_region (arena : aa_arena_t) : aa_arena_t :=
  { arena with head := init_region arena.head arena.region_size }

/-- `aa_arena_init`. -/
def aa_arena_init (region_size : Nat) : aa_arena_t :=
  new_region { region_size := region_size, head := [] }

/-- `aa_arena_deinit`: frees every region, leaving `head = NULL`. -/
def aa_arena_deinit (arena : aa_arena_t) : aa_arena_t :=
  { arena with head := [] }

/-- Comparison `ptr + size > data + region_size` for a region whose `data` is
at address `data` and whose cursor is `cursor`: the sum on the left is a
pointer plus a `size_t` and is reduced modulo `aa_word`. -/
def aa_exceeds (data cursor size region_size : Nat) : Bool :=
  decide ((data + cursor + size) % aa_word > data + region_size)

/-- Test `arena->head->ptr + size > arena->head->data + arena->region_size`. -/
def aa_head_overflows (arena : aa_arena_t) (size : Nat) : Bool :=
  match arena.head with
  | [] => true
  | head :: parent => aa_exceeds (aa_region_data parent.length) head.ptr size arena.region_size

/-- Tail of `aa_arena_alloc`, after the capacity test has passed: returns
`head->ptr` and advances it by `size`. -/
def aa_bump (arena : aa_arena_t) (size : Nat) : Option aa_ptr_t × aa_arena_t :=
  match arena.head with
  | [] => (Option.none, arena)
  | head :: parent =>
    (some { region := parent.length, offset := head.ptr },
      { arena with head := { ptr := head.ptr + size } :: parent })

/-- `aa_arena_alloc`: the returned pointer (`Option.none` for `NULL`) and the
arena afterwards.  With `head = NULL` (only after `aa_arena_deinit`) the C code
dereferences a null pointer; the model takes the capacity test as true there. -/
def aa_arena_alloc (arena : aa_arena_t) (size : Nat) : Option aa_ptr_t × aa_arena_t :=
  if aa_head_overflows arena size then
    if aa_head_overflows (new_region arena) size then (Option.none, new_region arena)
    else aa_bump (new_region arena) size
  else aa_bump arena size

/-- `aa_arena_sweep`. -/
def aa_arena_sweep (arena : aa_arena_t) : aa_arena_t :=
  new_region (aa_arena_deinit arena)

/-! ## Specification-side definitions -/

/-- Wording of the specification for Sequence, as a relation:
`sequence_chain run input pos children outs q` holds when every child
succeeds, in order, the first one started at `pos` and each next one at the
position left by the previous child; `outs` lists the children's outputs in
order and `q` is the end position of the last child (`pos` itself when there
is no child). -/
inductive sequence_chain (run : pp_parser_t → pp_state_t → Option pp_result_t)
    (input : List Nat) : Nat → List pp_parser_t → List pp_output_t → Nat → Prop where
  | nil (pos : Nat) : sequence_chain run input pos [] [] pos
  | cons (pos : Nat) (p : pp_parser_t) (ps : List pp_parser_t) (r : pp_result_t)
      (outs : List pp_output_t) (q : Nat) :
      run p { input := input, pos := pos } = some r → r.status = PP_OK →
      sequence_chain run input r.pos ps outs q →
      sequence_chain run input pos (p :: ps) (r.output :: outs) q

/-- Result of a parse on the suffix `input + q`, re-expressed relative to `input`. -/
def shift_result (q : Nat) (r : pp_result_t) : pp_result_t :=
  { r with pos := r.pos + q, rest := r.rest.map (fun k => k + q) }

/-- Operation on an arena by its owner. -/
inductive aa_op_t where
  | init (region_size : Nat)
  | alloc (size : Nat)
  | sweep
  deriving DecidableEq, Repr

/-- Block handed out by a successful allocation: the pointer and the size. -/
structure aa_block_t where
  region : Nat
  offset : Nat
  size : Nat
  deriving DecidableEq, Repr

/-- One operation on the arena, together with the blocks returned since the
last `init` or `sweep`. -/
def aa_step (st : aa_arena_t × List aa_block_t) : aa_op_t → aa_arena_t × List aa_block_t
  | aa_op_t.init region_size => (aa_arena_init region_size, [])
  | aa_op_t.alloc size =>
    match (aa_arena_alloc st.1 size).1 with
    | some p =>
      ((aa_arena_alloc st.1 size).2,
        { region := p.region, offset := p.offset, size := size } :: st.2)
    | Option.none => ((aa_arena_alloc st.1 size).2, st.2)
  | aa_op_t.sweep => (aa_arena_sweep st.1, [])

/-- The arena and its live blocks after `init(region_size)` and the operations `ops`. -/
def aa_run (region_size : Nat) (ops : List aa_op_t) : aa_arena_t × List aa_block_t :=
  ops.foldl aa_step (aa_arena_init region_size, [])

/-- Parser graphs built only from Pure, Eof, Literal, String (either case
mode), CharsetMember, CharsetNonMember, Optional, Choice, Many and Sequence. -/
inductive text_graph : pp_parser_t → Prop where
  | pure : text_graph PP_OP_PURE
  | eof : text_graph PP_OP_EOF
  | chr (c : Nat) : text_graph (PP_OP_CHAR c)
  | string (s : List Nat) : text_graph (PP_OP_STRING s)
  | string_no_case (s : List Nat) : text_graph (PP_OP_STRING_NO_CASE s)
  | any_of (chars : List Nat) : text_graph (PP_OP_ANY_OF chars)
  | none_of (chars : List Nat) : text_graph (PP_OP_NONE_OF chars)
  | optional (p : pp_parser_t) : text_graph p → text_graph (PP_OP_OPTIONAL p)
  | choice (ps : List pp_parser_t) : (∀ p ∈ ps, text_graph p) → text_graph (PP_OP_CHOICE ps)
  | many (p : pp_parser_t) : text_graph p → text_graph (PP_OP_MANY p)
  | sequence (ps : List pp_parser_t) : (∀ p ∈ ps, text_graph p) →
      text_graph (PP_OP_SEQUENCE ps)

/-- The input bytes from position `p` up to position `q`. -/
def input_slice (input : List Nat) (p q : Nat) : List Nat := (input.drop p).take (q - p)

/-! ## Facts about the C library model -/

theorem strlen_eq_length (s : List Nat) (hs : 0 ∉ s) : strlen s = s.length := by
  induction s with
  | nil => rfl
  | cons c cs ih =>
    have hc : c ≠ 0 := fun h => hs (by simp [h])
    have hcs : 0 ∉ cs := fun h => hs (List.mem_cons_of_mem _ h)
    simp [strlen, hc, ih hcs]

theorem takeWhile_ne_zero (s : List Nat) (hs : 0 ∉ s) :
    s.takeWhile (fun c => c != 0) = s := by
  induction s with
  | nil => rfl
  | cons c cs ih =>
    have hc : c ≠ 0 := fun h => hs (by simp [h])
    have hcs : 0 ∉ cs := fun h => hs (List.mem_cons_of_mem _ h)
    simp [List.takeWhile_cons, hc, ih hcs]

theorem pp_strdup_eq (s : List Nat) (hs : 0 ∉ s) : pp_strdup s = s :=
  takeWhile_ne_zero s hs

theorem pp_strndup_of_prefix (T s : List Nat) (hT : 0 ∉ T) (h : T <+: s) :
    pp_strndup s T.length = T := by
  obtain ⟨u, rfl⟩ := h
  simp [pp_strndup, takeWhile_ne_zero T hT]

theorem strncmp_eq_zero_iff (T : List Nat) (hT : 0 ∉ T) (s : List Nat) :
    strncmp s T T.length = 0 ↔ T <+: s := by
  induction T generalizing s with
  | nil => simp [strncmp]
  | cons t T ih =>
    have ht : t ≠ 0 := fun h => hT (by simp [h])
    have hT2 : 0 ∉ T := fun h => hT (List.mem_cons_of_mem _ h)
    cases s with
    | nil =>
      have : (0 : Nat) ≠ t := fun h => ht h.symm
      simp [strncmp, this, ht]
    | cons x s =>
      by_cases hx : x = t
      · subst hx
        simp [strncmp, ht, ih hT2 s, List.cons_prefix_cons]
      · have : (x : Int) - (t : Int) ≠ 0 := by omega
        have hx2 : ¬ t = x := fun h => hx h.symm
        simp [strncmp, hx, hx2, this, List.cons_prefix_cons]

theorem strchr_ne_none_iff (s : List Nat) (c : Nat) :
    strchr s c ≠ Option.none ↔ c = 0 ∨ c ∈ pp_strdup s := by
  induction s with
  | nil =>
    by_cases hc : c = 0 <;> simp [strchr, pp_strdup, hc]
  | cons x xs ih =>
    by_cases hxc : x = c
    · subst hxc
      by_cases hx0 : x = 0
      · simp [strchr, hx0]
      · simp [strchr, pp_strdup, List.takeWhile_cons, hx0]
    · have hcx : ¬ c = x := fun h => hxc h.symm
      by_cases hx0 : x = 0
      · subst hx0
        simp [strchr, pp_strdup, List.takeWhile_cons, hxc, hcx]
      · have ih2 : strchr xs c = Option.none ↔ ¬ (c = 0 ∨ c ∈ pp_strdup xs) := by
          rw [← ih]; exact not_not.symm
        simp only [pp_strdup] at ih2
        simp only [strchr, pp_strdup, List.takeWhile_cons, hxc, hcx, hx0, if_false, ne_eq,
          Option.map_eq_none', ih2, bne_iff_ne, not_false_eq_true, if_true, List.mem_cons,
          false_or, not_not]

/-! ### More fuel never changes a result -/

theorem choice_loop_mono (run run2 : pp_parser_t → pp_state_t → Option pp_result_t)
    (hrun : ∀ p st r, run p st = some r → run2 p st = some r) (state : pp_state_t)
    (ps : List pp_parser_t) (r : pp_result_t)
    (h : pp.choice_loop run state ps = some r) : pp.choice_loop run2 state ps = some r := by
  induction ps with
  | nil => simpa [pp.choice_loop] using h
  | cons p ps ih =>
    unfold pp.choice_loop at h ⊢
    cases hp : run p state with
    | none => simp [hp] at h
    | some res =>
      simp only [hp] at h
      simp only [hrun p state res hp]
      by_cases hst : res.status = PP_OK
      · rw [if_pos hst] at h ⊢; exact h
      · rw [if_neg hst] at h ⊢; exact ih h

theorem sequence_loop_mono (run run2 : pp_parser_t → pp_state_t → Option pp_result_t)
    (hrun : ∀ p st r, run p st = some r → run2 p st = some r) (input : List Nat)
    (ps : List pp_parser_t) :
    ∀ (pos : Nat) (acc : List pp_output_t) (r : pp_result_t),
      pp.sequence_loop run input ps pos acc = some r →
      pp.sequence_loop run2 input ps pos acc = some r := by
  induction ps with
  | nil => intro pos acc r h; simpa [pp.sequence_loop] using h
  | cons p ps ih =>
    intro pos acc r h
    unfold pp.sequence_loop at h ⊢
    cases hp : run p { input := input, pos := pos } with
    | none => simp [hp] at h
    | some res =>
      simp only [hp] at h
      simp only [hrun p _ res hp]
      by_cases hst : res.status ≠ PP_OK
      · rw [if_pos hst] at h ⊢; exact h
      · rw [if_neg hst] at h ⊢; exact ih _ _ _ h

theorem many_loop_mono (run run2 : pp_state_t → Option pp_result_t)
    (hrun : ∀ st r, run st = some r → run2 st = some r) (input : List Nat)
    (input_len fuel : Nat) :
    ∀ (fuel2 pos max_len : Nat) (acc : List pp_output_t) (x : Nat × List pp_output_t),
      fuel ≤ fuel2 → pp.many_loop run input input_len fuel pos max_len acc = some x →
      pp.many_loop run2 input input_len fuel2 pos max_len acc = some x := by
  induction fuel with
  | zero => intro fuel2 pos max_len acc x _ h; simp [pp.many_loop] at h
  | succ fuel ih =>
    intro fuel2 pos max_len acc x hle h
    obtain ⟨fuel3, rfl⟩ : ∃ m, fuel2 = m + 1 := ⟨fuel2 - 1, by omega⟩
    unfold pp.many_loop at h ⊢
    by_cases hlt : pos < input_len
    · rw [if_pos hlt] at h ⊢
      cases hp : run { input := input, pos := pos } with
      | none => simp [hp] at h
      | some res =>
        simp only [hp] at h
        simp only [hrun _ res hp]
        by_cases hst : res.status ≠ PP_OK
        · rw [if_pos hst] at h ⊢; exact h
        · rw [if_neg hst] at h ⊢
          by_cases hfit : (acc.length + 1) * sizeof_pp_output_t
              ≤ pp.many_grow acc.length max_len * sizeof_pp_output_ptr
          · rw [if_pos hfit] at h ⊢; exact ih _ _ _ _ _ (by omega) h
          · rw [if_neg hfit] at h; simp at h
    · rw [if_neg hlt] at h ⊢; exact h

/-- A result obtained with some fuel is obtained with any larger fuel. -/
theorem parse_fuel_mono (fuel : Nat) :
    ∀ (fuel2 : Nat) (parser : pp_parser_t) (state : pp_state_t) (r : pp_result_t),
      fuel ≤ fuel2 → pp.parse fuel parser state = some r →
      pp.parse fuel2 parser state = some r := by
  induction fuel with
  | zero => intro fuel2 parser state r _ h; simp [pp.parse] at h
  | succ fuel ih =>
    intro fuel2 parser state r hle h
    obtain ⟨fuel3, rfl⟩ : ∃ m, fuel2 = m + 1 := ⟨fuel2 - 1, by omega⟩
    have hle2 : fuel ≤ fuel3 := by omega
    have hrun : ∀ p st r, pp.parse fuel p st = some r → pp.parse fuel3 p st = some r :=
      fun p st r => ih fuel3 p st r hle2
    cases parser with
    | PP_OP_OPTIONAL child =>
      simp only [pp.parse] at h ⊢
      cases hc : pp.parse fuel child state with
      | none => simp [hc] at h
      | some res => simp only [hc] at h; simp only [hrun _ _ _ hc]; exact h
    | PP_OP_CHOICE parsers =>
      simp only [pp.parse] at h ⊢
      exact choice_loop_mono _ _ hrun _ _ _ h
    | PP_OP_MANY child =>
      simp only [pp.parse] at h ⊢
      cases hc : pp.many_loop (pp.parse fuel child) state.input (strlen state.input) fuel
          state.pos 4096 [] with
      | none => simp [hc] at h
      | some x =>
        simp only [hc] at h
        simp only [many_loop_mono _ _ (hrun child) _ _ _ fuel3 _ _ _ _ hle2 hc]
        exact h
    | PP_OP_SEQUENCE parsers =>
      simp only [pp.parse] at h ⊢
      exact sequence_loop_mono _ _ hrun _ _ _ _ _ h
    | PP_OP_MAP child map =>
      simp only [pp.parse] at h ⊢
      cases hc : pp.parse fuel child state with
      | none => simp [hc] at h
      | some res => simp only [hc] at h; simp only [hrun _ _ _ hc]; exact h
    | PP_OP_TAP child =>
      simp only [pp.parse] at h ⊢
      exact hrun _ _ _ h
    | _ => simpa [pp.parse] using h

/-! ### Parsing a suffix of the input -/

theorem byteAt_drop (input : List Nat) (q k : Nat) :
    byteAt (input.drop q) k = byteAt input (k + q) := by
  simp [byteAt, List.getD_eq_getElem?_getD, List.getElem?_drop, Nat.add_comm]

theorem strlen_drop (input : List Nat) (h0 : 0 ∉ input) (q k : Nat) :
    k < strlen (input.drop q) ↔ k + q < strlen input := by
  have h1 : 0 ∉ input.drop q := fun h => h0 (List.mem_of_mem_drop h)
  rw [strlen_eq_length _ h0, strlen_eq_length _ h1, List.length_drop]
  omega

theorem shift_result_ok (q pos rest : Nat) (out : pp_output_t) :
    shift_result q (pp.ok pos out rest) = pp.ok (pos + q) out (rest + q) := rfl

theorem shift_result_err (q pos : Nat) (s : pp_status_t) :
    shift_result q (pp.err pos s) = pp.err (pos + q) s := rfl

theorem choice_loop_shift (run run2 : pp_parser_t → pp_state_t → Option pp_result_t)
    (input : List Nat) (q k : Nat)
    (hrun : ∀ p, run p ⟨input, k + q⟩ = (run2 p ⟨input.drop q, k⟩).map (shift_result q))
    (ps : List pp_parser_t) :
    pp.choice_loop run ⟨input, k + q⟩ ps
      = (pp.choice_loop run2 ⟨input.drop q, k⟩ ps).map (shift_result q) := by
  induction ps with
  | nil => simp [pp.choice_loop, shift_result_err]
  | cons p ps ih =>
    unfold pp.choice_loop
    rw [hrun p]
    cases hp : run2 p ⟨input.drop q, k⟩ with
    | none => simp
    | some res =>
      simp only [Option.map_some']
      have hs : (shift_result q res).status = res.status := rfl
      rw [hs]
      by_cases hst : res.status = PP_OK
      · rw [if_pos hst, if_pos hst]; rfl
      · rw [if_neg hst, if_neg hst]; exact ih

theorem sequence_loop_shift (run run2 : pp_parser_t → pp_state_t → Option pp_result_t)
    (input : List Nat) (q : Nat)
    (hrun : ∀ p k, run p ⟨input, k + q⟩ = (run2 p ⟨input.drop q, k⟩).map (shift_result q))
    (ps : List pp_parser_t) :
    ∀ (k : Nat) (acc : List pp_output_t),
      pp.sequence_loop run input ps (k + q) acc
        = (pp.sequence_loop run2 (input.drop q) ps k acc).map (shift_result q) := by
  induction ps with
  | nil => intro k acc; simp [pp.sequence_loop, shift_result_ok]
  | cons p ps ih =>
    intro k acc
    unfold pp.sequence_loop
    rw [hrun p k]
    cases hp : run2 p ⟨input.drop q, k⟩ with
    | none => simp
    | some res =>
      simp only [Option.map_some']
      have hs : (shift_result q res).status = res.status := rfl
      have ho : (shift_result q res).output = res.output := rfl
      have hpos : (shift_result q res).pos = res.pos + q := rfl
      rw [hs, ho, hpos]
      by_cases hst : res.status ≠ PP_OK
      · rw [if_pos hst, if_pos hst]; rfl
      · rw [if_neg hst, if_neg hst]; exact ih _ _

theorem many_loop_shift (run run2 : pp_state_t → Option pp_result_t)
    (input : List Nat) (q len len2 : Nat) (hlen : ∀ k, k < len2 ↔ k + q < len)
    (hrun : ∀ k, run ⟨input, k + q⟩ = (run2 ⟨input.drop q, k⟩).map (shift_result q))
    (fuel : Nat) :
    ∀ (k max_len : Nat) (acc : List pp_output_t),
      pp.many_loop run input len fuel (k + q) max_len acc
        = (pp.many_loop run2 (input.drop q) len2 fuel k max_len acc).map
            (fun x => (x.1 + q, x.2)) := by
  induction fuel with
  | zero => intro k max_len acc; simp [pp.many_loop]
  | succ fuel ih =>
    intro k max_len acc
    unfold pp.many_loop
    by_cases hlt : k < len2
    · rw [if_pos hlt, if_pos ((hlen k).1 hlt), hrun k]
      cases hp : run2 ⟨input.drop q, k⟩ with
      | none => simp
      | some res =>
        simp only [Option.map_some']
        have hs : (shift_result q res).status = res.status := rfl
        have ho : (shift_result q res).output = res.output := rfl
        have hpos : (shift_result q res).pos = res.pos + q := rfl
        rw [hs, ho, hpos]
        by_cases hst : res.status ≠ PP_OK
        · rw [if_pos hst, if_pos hst]; rfl
        · rw [if_neg hst, if_neg hst]
          by_cases hfit : (acc.length + 1) * sizeof_pp_output_t
              ≤ pp.many_grow acc.length max_len * sizeof_pp_output_ptr
          · rw [if_pos hfit, if_pos hfit]; exact ih _ _ _
          · rw [if_neg hfit, if_neg hfit]; rfl
    · rw [if_neg hlt, if_neg (fun h => hlt ((hlen k).2 h))]; rfl

/-- Parsing the suffix `input + q` from position `k` is parsing `input` from
position `k + q`, with positions reported relative to the suffix. -/
theorem parse_shift (input : List Nat) (h0 : 0 ∉ input) (q : Nat) (fuel : Nat) :
    ∀ (parser : pp_parser_t) (k : Nat),
      pp.parse fuel parser ⟨input, k + q⟩
        = (pp.parse fuel parser ⟨input.drop q, k⟩).map (shift_result q) := by
  induction fuel with
  | zero => intro parser k; simp [pp.parse]
  | succ fuel ih =>
    intro parser k
    cases parser with
    | PP_OP_OPTIONAL child =>
      simp only [pp.parse]
      rw [ih child k]
      cases hc : pp.parse fuel child ⟨input.drop q, k⟩ with
      | none => simp
      | some res =>
        simp only [Option.map_some']
        have hs : (shift_result q res).status = res.status := rfl
        rw [hs]
        by_cases hst : res.status = PP_ERROR_UNEXPECTED_TOK
        · rw [if_pos hst, if_pos hst]; rfl
        · rw [if_neg hst, if_neg hst]; rfl
    | PP_OP_CHOICE parsers =>
      simp only [pp.parse]
      exact choice_loop_shift _ _ input q k (fun p => ih p k) parsers
    | PP_OP_MANY child =>
      simp only [pp.parse]
      rw [many_loop_shift (pp.parse fuel child) (pp.parse fuel child) input q _ _
        (strlen_drop input h0 q) (ih child) fuel k 4096 []]
      cases hc : pp.many_loop (pp.parse fuel child) (input.drop q) (strlen (input.drop q))
          fuel k 4096 [] with
      | none => simp
      | some x => simp [shift_result_ok]
    | PP_OP_SEQUENCE parsers =>
      simp only [pp.parse]
      exact sequence_loop_shift _ _ input q ih parsers k []
    | PP_OP_MAP child map =>
      simp only [pp.parse]
      rw [ih child k]
      cases hc : pp.parse fuel child ⟨input.drop q, k⟩ with
      | none => simp
      | some res =>
        simp only [Option.map_some']
        have hs : (shift_result q res).status = res.status := rfl
        have ho : (shift_result q res).output = res.output := rfl
        rw [hs, ho]
        by_cases hst : res.status = PP_OK
        · rw [if_pos hst, if_pos hst]
          cases map res.output with
          | none => rfl
          | some o => rfl
        · rw [if_neg hst, if_neg hst]; rfl
    | PP_OP_TAP child =>
      simp only [pp.parse]
      exact ih child k
    | PP_OP_STRING str =>
      simp only [pp.parse, List.drop_drop, Nat.add_comm q k]
      split <;> rename_i h <;> simp [h, shift_result_ok, shift_result_err, Nat.add_right_comm]
    | PP_OP_STRING_NO_CASE str =>
      simp only [pp.parse, List.drop_drop, Nat.add_comm q k]
      split <;> rename_i h <;> simp [h, shift_result_ok, shift_result_err, Nat.add_right_comm]
    | _ =>
      simp only [pp.parse, List.drop_drop, byteAt_drop]
      first
        | rfl
        | (split <;> simp [shift_result_ok, shift_result_err, Nat.add_right_comm])

/-! ## Claims -/

/-- C1: for every text `T` (a C string, so without a NUL byte), parsing `T`
itself with the case-sensitive node `pp_string T` from position `0` succeeds
with output `String(T)` and end position `len(T)`. -/
theorem string_parses_itself (fuel : Nat) (T : List Nat) (hT : 0 ∉ T) :
    pp_parse (fuel + 1) (pp_string T) T
      = some (pp.ok T.length (PP_OUTPUT_STRING T) T.length) := by
  have hpre : T <+: T := List.prefix_refl T
  simp [pp_parse, pp_init_state, pp.parse, pp_string, pp_strdup_eq T hT,
    strlen_eq_length T hT, (strncmp_eq_zero_iff T hT T).2 hpre, pp.string,
    pp_strndup_of_prefix T T hT hpre]

theorem string_parses_itself_witness :
    0 ∉ [97, 98, 99] ∧
    pp_parse 1 (pp_string [97, 98, 99]) [97, 98, 99]
      = some (pp.ok 3 (PP_OUTPUT_STRING [97, 98, 99]) 3) :=
  ⟨by decide, string_parses_itself 0 [97, 98, 99] (by decide)⟩

/-- C2: for every text `T` and every input that does not start with `T`, the
node `pp_string T` run from position `0` fails with `PP_ERROR_UNEXPECTED_TOK`
and reports position `0`. -/
theorem string_rejects_non_prefixed (fuel : Nat) (T input : List Nat) (hT : 0 ∉ T)
    (h : ¬ T <+: input) :
    pp_parse (fuel + 1) (pp_string T) input
      = some (pp.err 0 PP_ERROR_UNEXPECTED_TOK) := by
  have hne : ¬ strncmp input T T.length = 0 := fun h0 =>
    h ((strncmp_eq_zero_iff T hT input).1 h0)
  simp [pp_parse, pp_init_state, pp.parse, pp_string, pp_strdup_eq T hT,
    strlen_eq_length T hT, hne]

theorem string_rejects_non_prefixed_witness :
    0 ∉ [97, 98] ∧ ¬ [97, 98] <+: [97, 99, 98] ∧
    pp_parse 1 (pp_string [97, 98]) [97, 99, 98]
      = some (pp.err 0 PP_ERROR_UNEXPECTED_TOK) :=
  ⟨by decide, by decide,
    string_rejects_non_prefixed 0 [97, 98] [97, 99, 98] (by decide) (by decide)⟩

/-! ### Choice and Optional -/

theorem choice_loop_skip_failing (run : pp_parser_t → pp_state_t → Option pp_result_t)
    (state : pp_state_t) (pre rest : List pp_parser_t)
    (hpre : ∀ a ∈ pre, ∃ ra, run a state = some ra ∧ ra.status ≠ PP_OK) :
    pp.choice_loop run state (pre ++ rest) = pp.choice_loop run state rest := by
  induction pre with
  | nil => rfl
  | cons a pre ih =>
    obtain ⟨ra, hra, hst⟩ := hpre a (by simp)
    have hpre2 : ∀ a ∈ pre, ∃ ra, run a state = some ra ∧ ra.status ≠ PP_OK :=
      fun x hx => hpre x (List.mem_cons_of_mem _ hx)
    simp [pp.choice_loop, hra, hst, ih hpre2]

/-- C3: when every child before `b` in the list fails on the state of the
Choice, and `b` run on that same state succeeds with result `rb`, the Choice
returns exactly `rb` (with `pre = [a]`, `post = []` this is `Choice([a,b])`);
when every child fails, the Choice fails with `PP_ERROR_UNEXPECTED_TOK` at its
start position. -/
theorem choice_returns_first_success (fuel : Nat) (state : pp_state_t)
    (pre post : List pp_parser_t) (b : pp_parser_t) (rb : pp_result_t)
    (hpre : ∀ a ∈ pre, ∃ ra, pp.parse fuel a state = some ra ∧ ra.status ≠ PP_OK) :
    (pp.parse fuel b state = some rb → rb.status = PP_OK →
      pp.parse (fuel + 1) (pp_choice (pre ++ b :: post)) state = some rb) ∧
    pp.parse (fuel + 1) (pp_choice pre) state
      = some (pp.err state.pos PP_ERROR_UNEXPECTED_TOK) := by
  constructor
  · intro hb hok
    simp [pp.parse, pp_choice, choice_loop_skip_failing (pp.parse fuel) state pre (b :: post) hpre,
      pp.choice_loop, hb, hok]
  · have h := choice_loop_skip_failing (pp.parse fuel) state pre [] hpre
    simp only [List.append_nil] at h
    simp [pp.parse, pp_choice, h, pp.choice_loop]

theorem choice_returns_first_success_witness :
    (∀ a ∈ [pp_sequence [PP_OP_CHAR 97, PP_OP_CHAR 120]],
      ∃ ra, pp.parse 2 a ⟨[97, 98], 0⟩ = some ra ∧ ra.status ≠ PP_OK) ∧
    pp.parse 2 (pp_string [97, 98]) ⟨[97, 98], 0⟩
      = some (pp.ok 2 (PP_OUTPUT_STRING [97, 98]) 2) ∧
    pp.parse 3 (pp_choice [pp_sequence [PP_OP_CHAR 97, PP_OP_CHAR 120], pp_string [97, 98]])
        ⟨[97, 98], 0⟩
      = some (pp.ok 2 (PP_OUTPUT_STRING [97, 98]) 2) ∧
    pp.parse 3 (pp_choice [pp_sequence [PP_OP_CHAR 97, PP_OP_CHAR 120]]) ⟨[97, 98], 0⟩
      = some (pp.err 0 PP_ERROR_UNEXPECTED_TOK) :=
  have hpre : ∀ a ∈ [pp_sequence [PP_OP_CHAR 97, PP_OP_CHAR 120]],
      ∃ ra, pp.parse 2 a ⟨[97, 98], 0⟩ = some ra ∧ ra.status ≠ PP_OK := by
    intro a ha
    rw [List.mem_singleton] at ha
    subst ha
    exact ⟨pp.err 1 PP_ERROR_UNEXPECTED_TOK, rfl, by decide⟩
  ⟨hpre, rfl,
    (choice_returns_first_success 2 ⟨[97, 98], 0⟩ _ [] (pp_string [97, 98])
      (pp.ok 2 (PP_OUTPUT_STRING [97, 98]) 2) hpre).1 rfl rfl,
    (choice_returns_first_success 2 ⟨[97, 98], 0⟩ _ [] (pp_string [97, 98])
      (pp.ok 2 (PP_OUTPUT_STRING [97, 98]) 2) hpre).2⟩

/-- C4 as stated fails: the child `pp_fail()` fails on the input `"a"` (with
reason `PP_ERROR_UNKNOWN_OP`), and `Optional(pp_fail())` does not succeed: it
returns that failure. -/
theorem optional_of_fail_is_failure :
    pp.parse 1 pp_fail ⟨[97], 0⟩ = some (pp.err 0 PP_ERROR_UNKNOWN_OP) ∧
    pp.parse 2 (pp_optional pp_fail) ⟨[97], 0⟩ = some (pp.err 0 PP_ERROR_UNKNOWN_OP) :=
  ⟨rfl, rfl⟩

/-- C4, amended: for every child and state on which the child fails with
reason `PP_ERROR_UNEXPECTED_TOK`, `Optional(child)` succeeds with the Absence
output and end position equal to the start position. -/
theorem optional_recovers_unexpected_tok (fuel : Nat) (child : pp_parser_t)
    (state : pp_state_t) (r : pp_result_t)
    (h : pp.parse fuel child state = some r)
    (hs : r.status = PP_ERROR_UNEXPECTED_TOK) :
    pp.parse (fuel + 1) (pp_optional child) state
      = some (pp.ok state.pos PP_OUTPUT_NONE state.pos) := by
  simp [pp.parse, pp_optional, h, hs, pp.none]

theorem optional_recovers_unexpected_tok_witness :
    pp.parse 1 (pp_string [120]) ⟨[97], 0⟩ = some (pp.err 0 PP_ERROR_UNEXPECTED_TOK) ∧
    pp.parse 2 (pp_optional (pp_string [120])) ⟨[97], 0⟩
      = some (pp.ok 0 PP_OUTPUT_NONE 0) :=
  ⟨rfl, optional_recovers_unexpected_tok 1 (pp_string [120]) ⟨[97], 0⟩
    (pp.err 0 PP_ERROR_UNEXPECTED_TOK) rfl rfl⟩

/-! ### Many -/

/-- The loop of `Many` stops at a position that is at or past the end of the
input, or where the child has just failed. -/
theorem many_loop_stop (run : pp_state_t → Option pp_result_t) (input : List Nat)
    (input_len fuel : Nat) :
    ∀ (pos max_len : Nat) (outputs : List pp_output_t) (q : Nat) (outs : List pp_output_t),
      pp.many_loop run input input_len fuel pos max_len outputs = some (q, outs) →
      ¬ q < input_len ∨
        ∃ r, run { input := input, pos := q } = some r ∧ r.status ≠ PP_OK := by
  induction fuel with
  | zero => intro pos max_len outputs q outs h; simp [pp.many_loop] at h
  | succ fuel ih =>
    intro pos max_len outputs q outs h
    unfold pp.many_loop at h
    by_cases hlt : pos < input_len
    · rw [if_pos hlt] at h
      cases hrun : run { input := input, pos := pos } with
      | none => simp [hrun] at h
      | some result =>
        simp only [hrun] at h
        by_cases hst : result.status ≠ PP_OK
        · rw [if_pos hst] at h
          simp only [Option.some.injEq, Prod.mk.injEq] at h
          exact Or.inr ⟨result, h.1 ▸ hrun, hst⟩
        · rw [if_neg hst] at h
          by_cases hfit : (outputs.length + 1) * sizeof_pp_output_t
              ≤ pp.many_grow outputs.length max_len * sizeof_pp_output_ptr
          · rw [if_pos hfit] at h; exact ih _ _ _ _ _ h
          · rw [if_neg hfit] at h; simp at h
    · rw [if_neg hlt] at h
      simp only [Option.some.injEq, Prod.mk.injEq] at h
      exact Or.inl (h.1 ▸ hlt)

theorem many_loop_at_stop (run : pp_state_t → Option pp_result_t) (input : List Nat)
    (input_len fuel q max_len : Nat)
    (h : ¬ q < input_len ∨
        ∃ r, run { input := input, pos := q } = some r ∧ r.status ≠ PP_OK) :
    pp.many_loop run input input_len (fuel + 1) q max_len [] = some (q, []) := by
  unfold pp.many_loop
  rcases h with h | ⟨r, hr, hst⟩
  · rw [if_neg h]
  · by_cases hlt : q < input_len
    · rw [if_pos hlt]; simp [hr, hst]
    · rw [if_neg hlt]

/-- C5: whenever the evaluation of `Many(child)` yields a result, that
result is a success, and `Many(child)` applied again to its own remainder
succeeds with an empty Array and no further advance: run again on the same
input from the end position of the first result it ends at that position,
and run on the suffix of the input (a C string) that starts at that end
position it ends at position `0`. -/
theorem many_succeeds_and_is_idempotent (fuel : Nat) (child : pp_parser_t)
    (state : pp_state_t) (r : pp_result_t)
    (h : pp.parse fuel (pp_many child) state = some r) :
    r.status = PP_OK ∧
    pp.parse fuel (pp_many child) { input := state.input, pos := r.pos }
      = some (pp.ok r.pos (PP_OUTPUT_ARRAY []) r.pos) ∧
    (0 ∉ state.input →
      pp_parse fuel (pp_many child) (state.input.drop r.pos)
        = some (pp.ok 0 (PP_OUTPUT_ARRAY []) 0)) := by
  have key : r.status = PP_OK ∧
      pp.parse fuel (pp_many child) { input := state.input, pos := r.pos }
        = some (pp.ok r.pos (PP_OUTPUT_ARRAY []) r.pos) := by
    cases fuel with
    | zero => simp [pp.parse] at h
    | succ fuel =>
      simp only [pp.parse, pp_many] at h ⊢
      cases hloop : pp.many_loop (pp.parse fuel child) state.input (strlen state.input)
          fuel state.pos 4096 [] with
      | none => simp [hloop] at h
      | some res =>
        obtain ⟨q, outs⟩ := res
        simp only [hloop, Option.some.injEq] at h
        subst h
        refine ⟨rfl, ?_⟩
        cases fuel with
        | zero => simp [pp.many_loop] at hloop
        | succ fuel =>
          have hstop := many_loop_stop _ _ _ _ _ _ _ _ _ hloop
          simp [pp.ok, many_loop_at_stop _ _ _ fuel q 4096 hstop, pp.array]
  refine ⟨key.1, key.2, ?_⟩
  intro h0
  have hshift := parse_shift state.input h0 r.pos fuel (pp_many child) 0
  rw [Nat.zero_add, key.2] at hshift
  unfold pp_parse pp_init_state
  cases hsuf : pp.parse fuel (pp_many child)
      { input := List.drop r.pos state.input, pos := 0 } with
  | none => simp [hsuf] at hshift
  | some r2 =>
    simp only [hsuf, Option.map_some', Option.some.injEq] at hshift
    obtain ⟨p2, s2, o2, rest2⟩ := r2
    simp only [shift_result, pp.ok, pp_result_t.mk.injEq] at hshift
    obtain ⟨hp, hs, ho, hr⟩ := hshift
    have hp2 : p2 = 0 := by omega
    have hr2 : rest2 = some 0 := by
      cases rest2 with
      | none => simp at hr
      | some k =>
        simp only [Option.map_some', Option.some.injEq] at hr
        have : k = 0 := by omega
        rw [this]
    simp [pp.ok, hp2, ← hs, ← ho, hr2]

theorem many_succeeds_and_is_idempotent_witness :
    pp.parse 4 (pp_many (pp_any_of [32, 9])) ⟨[32, 32, 120], 0⟩
      = some (pp.ok 2 (PP_OUTPUT_ARRAY [PP_OUTPUT_CHAR 32, PP_OUTPUT_CHAR 32]) 0) ∧
    (pp.ok 2 (PP_OUTPUT_ARRAY [PP_OUTPUT_CHAR 32, PP_OUTPUT_CHAR 32]) 0).status = PP_OK ∧
    pp.parse 4 (pp_many (pp_any_of [32, 9])) ⟨[32, 32, 120], 2⟩
      = some (pp.ok 2 (PP_OUTPUT_ARRAY []) 2) ∧
    pp_parse 4 (pp_many (pp_any_of [32, 9])) [120] = some (pp.ok 0 (PP_OUTPUT_ARRAY []) 0) :=
  have h := many_succeeds_and_is_idempotent 4 (pp_any_of [32, 9]) ⟨[32, 32, 120], 0⟩
    (pp.ok 2 (PP_OUTPUT_ARRAY [PP_OUTPUT_CHAR 32, PP_OUTPUT_CHAR 32]) 0) rfl
  ⟨rfl, h.1, h.2.1, h.2.2 (by decide)⟩

/-! ### Sequence -/

theorem sequence_chain_length (run : pp_parser_t → pp_state_t → Option pp_result_t)
    (input : List Nat) (pos : Nat) (ps : List pp_parser_t) (outs : List pp_output_t)
    (q : Nat) (h : sequence_chain run input pos ps outs q) : outs.length = ps.length := by
  induction h with
  | nil _ => rfl
  | cons _ _ _ _ _ _ _ _ _ ih => simp [ih]

theorem sequence_loop_ok_iff (run : pp_parser_t → pp_state_t → Option pp_result_t)
    (input : List Nat) (ps : List pp_parser_t) :
    ∀ (pos : Nat) (acc : List pp_output_t) (r : pp_result_t),
      (pp.sequence_loop run input ps pos acc = some r ∧ r.status = PP_OK) ↔
        ∃ outs q, sequence_chain run input pos ps outs q ∧
          r = pp.ok q (PP_OUTPUT_ARRAY (acc ++ outs)) q := by
  induction ps with
  | nil =>
    intro pos acc r
    constructor
    · rintro ⟨h, -⟩
      simp only [pp.sequence_loop, pp.array, List.take_length, Option.some.injEq] at h
      exact ⟨[], pos, sequence_chain.nil pos, by simp [← h]⟩
    · rintro ⟨outs, q, hc, hr⟩
      cases hc
      subst hr
      simp [pp.sequence_loop, pp.array, pp.ok]
  | cons p ps ih =>
    intro pos acc r
    constructor
    · rintro ⟨h, hok⟩
      unfold pp.sequence_loop at h
      cases hrun : run p { input := input, pos := pos } with
      | none => simp [hrun] at h
      | some res =>
        simp only [hrun] at h
        by_cases hst : res.status ≠ PP_OK
        · rw [if_pos hst] at h
          simp only [Option.some.injEq] at h
          subst h
          exact absurd hok hst
        · rw [if_neg hst] at h
          have hst2 : res.status = PP_OK := not_not.mp hst
          obtain ⟨outs, q, hc, hr⟩ := (ih res.pos (acc ++ [res.output]) r).1 ⟨h, hok⟩
          refine ⟨res.output :: outs, q, sequence_chain.cons pos p ps res outs q hrun hst2 hc, ?_⟩
          simpa using hr
    · rintro ⟨outs, q, hc, hr⟩
      cases hc with
      | cons _ _ _ res outs2 _ hrun hst hc2 =>
        have h2 := (ih res.pos (acc ++ [res.output]) r).2 ⟨outs2, q, hc2, by simpa using hr⟩
        unfold pp.sequence_loop
        simp only [hrun]
        have hst2 : ¬ res.status ≠ PP_OK := not_not.mpr hst
        rw [if_neg hst2]
        exact h2

/-- C6: `Sequence(children)` succeeds exactly when each child succeeds in
order, each started at the position left by the previous child
(`sequence_chain`); the result then has the end position of the last child
and the Array of the children's outputs in order, as many as there are
children.  `Sequence([Literal('a'), Literal('b')])` on `"ab"` gives
`Array[Character('a'), Character('b')]` with end position `2`. -/
theorem sequence_succeeds_iff_chain (fuel : Nat) (children : List pp_parser_t)
    (state : pp_state_t) (r : pp_result_t) :
    ((pp.parse (fuel + 1) (pp_sequence children) state = some r ∧ r.status = PP_OK) ↔
      ∃ outs q, sequence_chain (pp.parse fuel) state.input state.pos children outs q ∧
        outs.length = children.length ∧ r = pp.ok q (PP_OUTPUT_ARRAY outs) q) ∧
    pp_parse 2 (pp_sequence [PP_OP_CHAR 97, PP_OP_CHAR 98]) [97, 98]
      = some (pp.ok 2 (PP_OUTPUT_ARRAY [PP_OUTPUT_CHAR 97, PP_OUTPUT_CHAR 98]) 2) := by
  refine ⟨?_, rfl⟩
  have h := sequence_loop_ok_iff (pp.parse fuel) state.input children state.pos [] r
  simp only [List.nil_append] at h
  simp only [pp.parse, pp_sequence]
  rw [h]
  constructor
  · rintro ⟨outs, q, hc, hr⟩
    exact ⟨outs, q, hc, sequence_chain_length _ _ _ _ _ _ hc, hr⟩
  · rintro ⟨outs, q, hc, -, hr⟩
    exact ⟨outs, q, hc, hr⟩

/-! ### Remaining text, Expect and CharsetMember -/

/-- C7, evaluation at the failing inputs: `Many(CharsetMember("a"))` on `"a"`
ends at position `1` while its `rest` is `input + 0`, and `Expect('a')` on
`"a"` ends at position `0` while its `rest` is `input + 1`. -/
theorem rest_differs_from_end_position :
    pp_parse 3 (pp_many (pp_any_of [97])) [97]
      = some { pos := 1, status := PP_OK, output := PP_OUTPUT_ARRAY [PP_OUTPUT_CHAR 97],
               rest := some 0 } ∧
    pp_parse 1 (pp_expect 97) [97]
      = some { pos := 0, status := PP_OK, output := PP_OUTPUT_NONE, rest := some 1 } :=
  ⟨rfl, rfl⟩

/-- C8, evaluation at the failing input: on `"xa"` at position `1`, where the
byte is `'a'`, `Expect('a')` succeeds with the Absence output and reports end
position `1`, not `2`; only `rest` is advanced. -/
theorem expect_keeps_position :
    byteAt [120, 97] 1 = 97 ∧
    pp.parse 1 (pp_expect 97) ⟨[120, 97], 1⟩
      = some { pos := 1, status := PP_OK, output := PP_OUTPUT_NONE, rest := some 2 } :=
  ⟨rfl, rfl⟩

/-- C9, evaluation at the failing input: at the end of the input (here the
empty input, position `0`) `CharsetMember("0123456789")` succeeds with the
terminator as its Character and end position `1`; on `"7x"` it gives
`Character('7')`, end position `1` and remainder `"x"`. -/
theorem any_of_accepts_terminator :
    pp_parse 1 (pp_any_of [48, 49, 50, 51, 52, 53, 54, 55, 56, 57]) []
      = some (pp.ok 1 (PP_OUTPUT_CHAR 0) 1) ∧
    pp_parse 1 (pp_any_of [48, 49, 50, 51, 52, 53, 54, 55, 56, 57]) [55, 120]
      = some (pp.ok 1 (PP_OUTPUT_CHAR 55) 1) ∧
    [55, 120].drop 1 = [120] :=
  ⟨rfl, rfl, rfl⟩

/-! ### Case-insensitive String -/

theorem tolower_eq_zero_iff (c : Nat) : tolower c = 0 ↔ c = 0 := by
  unfold tolower
  split <;> omega

theorem strncasecmp_eq_zero (T : List Nat) (hT : 0 ∉ T) (s : List Nat)
    (h : (s.take T.length).map tolower = T.map tolower) :
    strncasecmp s T T.length = 0 ∧ 0 ∉ s.take T.length := by
  induction T generalizing s with
  | nil => simp [strncasecmp]
  | cons t T ih =>
    have ht : t ≠ 0 := fun h => hT (by simp [h])
    have hT2 : 0 ∉ T := fun h => hT (List.mem_cons_of_mem _ h)
    cases s with
    | nil => simp at h
    | cons x s =>
      simp only [List.length_cons, List.take_succ_cons, List.map_cons, List.cons.injEq] at h
      obtain ⟨hx, hrest⟩ := h
      have hx0 : x ≠ 0 := by
        intro hx0
        rw [hx0] at hx
        have : tolower t = 0 := by rw [← hx]; rfl
        exact ht ((tolower_eq_zero_iff t).1 this)
      obtain ⟨h1, h2⟩ := ih hT2 s hrest
      constructor
      · simp [strncasecmp, hx, hx0, h1]
      · simp only [List.length_cons, List.take_succ_cons, List.mem_cons, not_or]
        exact ⟨fun h => hx0 h.symm, h2⟩

/-- C10: for every text `T` (a C string) and every input whose first `len(T)`
bytes equal `T` up to ASCII letter case, the node `pp_string_no_case T` run
from position `0` succeeds with end position `len(T)` and the String made of
the input's own first `len(T)` bytes. -/
theorem string_no_case_keeps_input_casing (fuel : Nat) (T input : List Nat) (hT : 0 ∉ T)
    (h : (input.take T.length).map tolower = T.map tolower) :
    pp_parse (fuel + 1) (pp_string_no_case T) input
      = some (pp.ok T.length (PP_OUTPUT_STRING (input.take T.length)) T.length) := by
  obtain ⟨h1, h2⟩ := strncasecmp_eq_zero T hT input h
  simp [pp_parse, pp_init_state, pp.parse, pp_string_no_case, pp_strdup_eq T hT,
    strlen_eq_length T hT, h1, pp.string, pp_strndup, takeWhile_ne_zero _ h2]

theorem string_no_case_keeps_input_casing_witness :
    0 ∉ [102, 111, 111] ∧
    ([70, 79, 79].take [102, 111, 111].length).map tolower = [102, 111, 111].map tolower ∧
    pp_parse 1 (pp_string_no_case [102, 111, 111]) [70, 79, 79]
      = some (pp.ok 3 (PP_OUTPUT_STRING [70, 79, 79]) 3) :=
  ⟨by decide, by decide,
    string_no_case_keeps_input_casing 0 [102, 111, 111] [70, 79, 79] (by decide) (by decide)⟩

/-! ### Fail, select and concat_array -/

/-- C11, evaluation at the failing input: the node built by `pp_fail()` fails
on every input with status `PP_ERROR_UNKNOWN_OP`, not
`PP_ERROR_UNEXPECTED_TOK`. -/
theorem fail_reports_unknown_op (fuel : Nat) (input : List Nat) :
    pp_parse (fuel + 1) pp_fail input = some (pp.err 0 PP_ERROR_UNKNOWN_OP) := rfl

/-- C12, evaluation at the failing input: `pp_select(child, 0)` over a child
whose output on `"ab"` is `Array[Character('a'), Character('b')]` outputs
element `1`, `Character('b')`; every index builds the same parser as index `1`. -/
theorem select_takes_element_one :
    pp_parse 2 (pp_sequence [pp_any_of [97], pp_any_of [98]]) [97, 98]
      = some (pp.ok 2 (PP_OUTPUT_ARRAY [PP_OUTPUT_CHAR 97, PP_OUTPUT_CHAR 98]) 2) ∧
    pp_parse 3 (pp_select (pp_sequence [pp_any_of [97], pp_any_of [98]]) 0) [97, 98]
      = some (pp.ok 2 (PP_OUTPUT_CHAR 98) 2) :=
  ⟨rfl, rfl⟩

theorem concat_array_loop_stuck (src : List pp_output_t) (len i : Nat)
    (values : List pp_output_t) (hi : i < len) (h : src[i]? = some (PP_OUTPUT_ARRAY [])) :
    ∀ fuel, pp.concat_array_loop src len fuel i values = Option.none := by
  intro fuel
  induction fuel with
  | zero => rfl
  | succ fuel ih =>
    unfold pp.concat_array_loop
    rw [if_pos hi, h]
    simpa using ih

/-- More fuel than `len + 1 - i` is never needed by the second loop of
`concat_array`. -/
theorem concat_array_loop_fuel (src : List pp_output_t) (len : Nat) (fuel : Nat) :
    ∀ (i : Nat) (values out : List pp_output_t) (fuel2 : Nat),
      pp.concat_array_loop src len fuel i values = some out → len - i + 1 ≤ fuel2 →
      pp.concat_array_loop src len fuel2 i values = some out := by
  induction fuel with
  | zero => intro i values out fuel2 h; simp [pp.concat_array_loop] at h
  | succ fuel ih =>
    intro i values out fuel2 h hle
    obtain ⟨fuel3, rfl⟩ : ∃ m, fuel2 = m + 1 := ⟨fuel2 - 1, by omega⟩
    unfold pp.concat_array_loop at h ⊢
    by_cases hi : i < len
    · rw [if_pos hi] at h ⊢
      cases hsrc : src[i]? with
      | none => simp [hsrc] at h
      | some ele =>
        cases ele with
        | PP_OUTPUT_ARRAY vs =>
          simp only [hsrc] at h ⊢
          cases vs with
          | nil =>
            simp only [List.length_nil, Nat.add_zero, List.append_nil] at h ⊢
            have := concat_array_loop_stuck src len i values hi hsrc fuel
            rw [this] at h
            simp at h
          | cons v vs =>
            exact ih _ _ _ _ h (by simp only [List.length_cons]; omega)
        | PP_OUTPUT_NONE => simp only [hsrc] at h ⊢; exact ih _ _ _ _ h (by omega)
        | PP_OUTPUT_CHAR c => simp only [hsrc] at h ⊢; exact ih _ _ _ _ h (by omega)
        | PP_OUTPUT_STRING s => simp only [hsrc] at h ⊢; exact ih _ _ _ _ h (by omega)
    · rw [if_neg hi] at h ⊢; exact h

/-- C13, evaluation at the failing inputs.  On `Array[Array[], Character('a')]`,
the output of `Sequence([Many(CharsetMember("x")), CharsetMember("a")])` on
`"a"`, the second loop of `concat_array` reads the empty Array at index `0`,
leaves `i` at `0` and has no result whatever the fuel, so the parser built by
`pp_concat_array` has none either.  On `Array[Array['a','b'], Character('c')]`
the loop reads the source at index `2`, past its end. -/
theorem concat_array_no_result :
    pp_parse 3 (pp_sequence [pp_many (pp_any_of [120]), pp_any_of [97]]) [97]
      = some (pp.ok 1 (PP_OUTPUT_ARRAY [PP_OUTPUT_ARRAY [], PP_OUTPUT_CHAR 97]) 1) ∧
    (∀ fuel, pp.concat_array_loop [PP_OUTPUT_ARRAY [], PP_OUTPUT_CHAR 97] 1 fuel 0 []
      = Option.none) ∧
    pp.concat_array (PP_OUTPUT_ARRAY [PP_OUTPUT_ARRAY [], PP_OUTPUT_CHAR 97]) = Option.none ∧
    (∀ fuel, pp_parse fuel
        (pp_concat_array [pp_many (pp_any_of [120]), pp_any_of [97]]) [97] = Option.none) ∧
    pp.concat_array_len [PP_OUTPUT_ARRAY [PP_OUTPUT_CHAR 97, PP_OUTPUT_CHAR 98],
        PP_OUTPUT_CHAR 99] = 3 ∧
    [PP_OUTPUT_ARRAY [PP_OUTPUT_CHAR 97, PP_OUTPUT_CHAR 98], PP_OUTPUT_CHAR 99][2]?
      = Option.none ∧
    pp.concat_array (PP_OUTPUT_ARRAY [PP_OUTPUT_ARRAY [PP_OUTPUT_CHAR 97, PP_OUTPUT_CHAR 98],
        PP_OUTPUT_CHAR 99]) = Option.none := by
  refine ⟨rfl, concat_array_loop_stuck _ _ _ _ (by decide) rfl, rfl, ?_, rfl, rfl, rfl⟩
  intro fuel
  cases fuel with
  | zero => rfl
  | succ fuel =>
    simp only [pp_parse, pp_init_state, pp_concat_array, pp_map, pp.parse]
    cases hseq : pp.parse fuel (pp_sequence [pp_many (pp_any_of [120]), pp_any_of [97]])
        { input := [97], pos := 0 } with
    | none => rfl
    | some r =>
      have h1 := parse_fuel_mono fuel (fuel + 3) _ _ _ (by omega) hseq
      have h2 : pp.parse (fuel + 3) (pp_sequence [pp_many (pp_any_of [120]), pp_any_of [97]])
          { input := [97], pos := 0 }
          = some (pp.ok 1 (PP_OUTPUT_ARRAY [PP_OUTPUT_ARRAY [], PP_OUTPUT_CHAR 97]) 1) :=
        parse_fuel_mono 3 (fuel + 3) _ _ _ (by omega) rfl
      rw [h1] at h2
      simp only [Option.some.injEq] at h2
      subst h2
      rfl

/-! ### concat_string -/

theorem zero_not_mem_pp_strdup (s : List Nat) : 0 ∉ pp_strdup s := by
  intro h
  have := List.mem_takeWhile_imp h
  simp at this

theorem strlen_eq_pp_strdup_length (s : List Nat) : strlen s = (pp_strdup s).length := by
  induction s with
  | nil => rfl
  | cons c cs ih =>
    by_cases hc : c = 0
    · simp [strlen, pp_strdup, List.takeWhile_cons, hc]
    · simp only [pp_strdup] at ih
      simp [strlen, pp_strdup, List.takeWhile_cons, hc, ih]

theorem pp_strndup_pp_strdup (s : List Nat) :
    pp_strndup (pp_strdup s) (strlen s) = pp_strdup s := by
  rw [strlen_eq_pp_strdup_length, pp_strndup, List.take_length]
  exact takeWhile_ne_zero _ (zero_not_mem_pp_strdup s)

theorem concat_string_is_string (v : pp_output_t) :
    ∃ s, pp.concat_string v = PP_OUTPUT_STRING s := by
  cases v with
  | PP_OUTPUT_NONE => exact ⟨_, by rw [pp.concat_string, pp.string]⟩
  | PP_OUTPUT_CHAR c => exact ⟨_, by rw [pp.concat_string, pp.string]⟩
  | PP_OUTPUT_STRING s => exact ⟨s, by rw [pp.concat_string]⟩
  | PP_OUTPUT_ARRAY vs => exact ⟨_, by rw [pp.concat_string, pp.string]⟩

/-- C14: for every output value `v`, `concat_string(v)` is a String `s`;
`concat_string` applied to the one-element Array wrapping it yields the String
with the same text (the bytes of `s` up to its terminator), and
`concat_string` applied directly to `concat_string(v)` returns it unchanged. -/
theorem concat_string_idempotent (v : pp_output_t) :
    ∃ s, pp.concat_string v = PP_OUTPUT_STRING s ∧
      pp.concat_string (PP_OUTPUT_ARRAY [pp.concat_string v]) = PP_OUTPUT_STRING (pp_strdup s) ∧
      pp.concat_string (pp.concat_string v) = pp.concat_string v := by
  obtain ⟨s, hs⟩ := concat_string_is_string v
  refine ⟨s, hs, ?_, ?_⟩
  · rw [hs]
    simp [pp.concat_string, pp.concat_string_elems, pp_output_t.output_string, pp.string,
      pp_strndup_pp_strdup]
  · rw [hs]
    simp [pp.concat_string]

/-! ### Arena -/

theorem aa_run_snoc (region_size : Nat) (ops : List aa_op_t) (op : aa_op_t) :
    aa_run region_size (ops ++ [op]) = aa_step (aa_run region_size ops) op := by
  simp [aa_run, List.foldl_append]

theorem aa_arena_alloc_region_size (arena : aa_arena_t) (size : Nat) :
    (aa_arena_alloc arena size).2.region_size = arena.region_size := by
  cases hc : arena.head with
  | nil =>
    simp only [aa_arena_alloc, aa_head_overflows, new_region, init_region, aa_bump, hc]
    split_ifs <;> rfl
  | cons head parent =>
    simp only [aa_arena_alloc, aa_head_overflows, new_region, init_region, aa_bump, hc]
    split_ifs <;> rfl

theorem aa_run_allocs_region_size (region_size : Nat) (sizes : List Nat) :
    (aa_run region_size (sizes.map aa_op_t.alloc)).1.region_size = region_size := by
  induction sizes using List.reverseRecOn with
  | nil => rfl
  | append_singleton sizes size ih =>
    rw [List.map_append, List.map_singleton, aa_run_snoc]
    simp only [aa_step]
    split <;> (simp only [aa_arena_alloc_region_size]; exact ih)

theorem aa_exceeds_of_le (data cursor size region_size : Nat)
    (h : cursor + size ≤ region_size) : aa_exceeds data cursor size region_size = false := by
  simp only [aa_exceeds, gt_iff_lt, decide_eq_false_iff_not, not_lt]
  exact le_trans (Nat.mod_le _ _) (by omega)

/-- C17, evaluation at the failing input: after `init(64)`, the request of
`2 ^ 64 - 16` bytes (`SIZE_MAX - 15`), which is larger than the region size,
is not answered with `NULL`: the sum `ptr + size` wraps around to the address
of the region itself, the capacity test passes wherever the region lies, and
`aa_arena_alloc` returns `data` of the head region, leaving the cursor `16`
bytes before `data`.  A request of `65` bytes is answered with `NULL`, after
one region was chained. -/
theorem alloc_wraps_near_size_max :
    aa_arena_alloc (aa_arena_init 64) (2 ^ 64 - 16)
      = (some { region := 0, offset := 0 },
          { region_size := 64, head := [{ ptr := 2 ^ 64 - 16 }] }) ∧
    64 < 2 ^ 64 - 16 ∧ 2 ^ 64 - 16 < aa_word ∧
    (∀ block, aa_exceeds (block + sizeof_aa_region_t) 0 (2 ^ 64 - 16) 64 = false) ∧
    aa_address 0 (2 ^ 64 - 16) + sizeof_aa_region_t = aa_region_data 0 ∧
    aa_arena_alloc (aa_arena_init 64) 65
      = (Option.none, { region_size := 64, head := [{ ptr := 0 }, { ptr := 0 }] }) := by
  refine ⟨by decide, by decide, by decide, ?_, by decide, by decide⟩
  intro block
  simp only [aa_exceeds, aa_word, sizeof_aa_region_t, gt_iff_lt, decide_eq_false_iff_not, not_lt]
  omega

/-- C18: after `init(R)` and any sequence of allocations, `sweep()` leaves the
arena with region size `R` and a chain of exactly one region with cursor `0`,
and the next allocation of any `size ≤ R` returns offset `0` of that region,
the chain still being that single region. -/
theorem sweep_leaves_one_fresh_region (region_size : Nat) (sizes : List Nat) (size : Nat)
    (h : size ≤ region_size) :
    aa_arena_sweep (aa_run region_size (sizes.map aa_op_t.alloc)).1
      = { region_size := region_size, head := [{ ptr := 0 }] } ∧
    aa_arena_alloc (aa_arena_sweep (aa_run region_size (sizes.map aa_op_t.alloc)).1) size
      = (some { region := 0, offset := 0 },
          { region_size := region_size, head := [{ ptr := size }] }) := by
  have hs : aa_arena_sweep (aa_run region_size (sizes.map aa_op_t.alloc)).1
      = { region_size := region_size, head := [{ ptr := 0 }] } := by
    simp [aa_arena_sweep, aa_arena_deinit, new_region, init_region,
      aa_run_allocs_region_size]
  refine ⟨hs, ?_⟩
  rw [hs]
  simp only [aa_arena_alloc, aa_head_overflows, aa_bump, List.length_nil,
    aa_exceeds_of_le (aa_region_data 0) 0 size region_size (by omega), Nat.zero_add]
  rfl

theorem sweep_leaves_one_fresh_region_witness :
    (aa_run 64 [aa_op_t.alloc 40, aa_op_t.alloc 40])
      = ({ region_size := 64, head := [{ ptr := 40 }, { ptr := 40 }] },
          [{ region := 1, offset := 0, size := 40 }, { region := 0, offset := 0, size := 40 }]) ∧
    (40 : Nat) ≤ 64 ∧
    aa_arena_sweep (aa_run 64 ([40, 40].map aa_op_t.alloc)).1
      = { region_size := 64, head := [{ ptr := 0 }] } ∧
    aa_arena_alloc (aa_arena_sweep (aa_run 64 ([40, 40].map aa_op_t.alloc)).1) 40
      = (some { region := 0, offset := 0 }, { region_size := 64, head := [{ ptr := 40 }] }) :=
  ⟨by decide, by decide, sweep_leaves_one_fresh_region 64 [40, 40] 40 (by decide)⟩

/-- C19, evaluation at the failing inputs.  After `init(64)`, `alloc(64)`
returns the block of `64` bytes at `data` of a region whose `malloc`ed block
holds `56` bytes of `data`: the last `8` bytes of the returned block lie
outside the region.  After `init(64)`, `alloc(2 ^ 64 - 16)` leaves the cursor
at the address of the region's header, `16` bytes before `data`; the next
`alloc(16)` returns that address, the header itself, and the `alloc(16)` after
it returns `data`, the address of the first block, all three blocks being
live. -/
theorem arena_blocks_leave_region :
    aa_run 64 [aa_op_t.alloc 64]
      = ({ region_size := 64, head := [{ ptr := 64 }] },
          [{ region := 0, offset := 0, size := 64 }]) ∧
    init_region_malloc_size 64 = 72 ∧ init_region_data_bytes 64 = 56 ∧
    aa_run 64 [aa_op_t.alloc (2 ^ 64 - 16)]
      = ({ region_size := 64, head := [{ ptr := 2 ^ 64 - 16 }] },
          [{ region := 0, offset := 0, size := 2 ^ 64 - 16 }]) ∧
    aa_address 0 (2 ^ 64 - 16) = aa_malloc_address 0 ∧
    aa_address 0 (2 ^ 64 - 16) < aa_region_data 0 ∧
    aa_run 64 [aa_op_t.alloc (2 ^ 64 - 16), aa_op_t.alloc 16, aa_op_t.alloc 16]
      = ({ region_size := 64, head := [{ ptr := 2 ^ 64 + 16 }] },
          [{ region := 0, offset := 2 ^ 64, size := 16 },
            { region := 0, offset := 2 ^ 64 - 16, size := 16 },
            { region := 0, offset := 0, size := 2 ^ 64 - 16 }]) ∧
    aa_address 0 (2 ^ 64) = aa_address 0 0 := by
  refine ⟨by decide, by decide, by decide, by decide, by decide, by decide, by decide, by decide⟩

/-! ### Failure of a Sequence -/

theorem sequence_loop_first_failure (run : pp_parser_t → pp_state_t → Option pp_result_t)
    (input : List Nat) (pos : Nat) (pre : List pp_parser_t) (outs : List pp_output_t) (q : Nat)
    (hpre : sequence_chain run input pos pre outs q) (c : pp_parser_t) (rc : pp_result_t)
    (hc : run c { input := input, pos := q } = some rc) (hfail : rc.status ≠ PP_OK)
    (post : List pp_parser_t) :
    ∀ acc, pp.sequence_loop run input (pre ++ c :: post) pos acc
      = some (pp.err q rc.status) := by
  induction hpre with
  | nil pos =>
    intro acc
    simp only [List.nil_append, pp.sequence_loop, hc]
    rw [if_pos hfail]
  | cons pos p ps r outs q hrun hok _ ih =>
    intro acc
    simp only [List.cons_append, pp.sequence_loop, hrun]
    rw [if_neg (not_not.mpr hok)]
    exact ih hc _

/-- C20 as stated fails: in `Sequence([CharsetMember("a"), pp_fail()])` on
`"a"` the second child fails (reason `PP_ERROR_UNKNOWN_OP`, position `1`), and
the enclosing Optional does not fall back to the pre-sequence position `0`: it
returns that failure at position `1`. -/
theorem optional_of_failing_sequence_fails :
    pp.parse 2 (pp_sequence [pp_any_of [97], pp_fail]) ⟨[97], 0⟩
      = some (pp.err 1 PP_ERROR_UNKNOWN_OP) ∧
    pp.parse 3 (pp_optional (pp_sequence [pp_any_of [97], pp_fail])) ⟨[97], 0⟩
      = some (pp.err 1 PP_ERROR_UNKNOWN_OP) :=
  ⟨rfl, rfl⟩

/-- C20, amended: when the children `pre` succeed in order from the start
position up to `q` and the next child `c` fails at `q`, the Sequence fails
with the reason of `c` and reports `q`, whatever the later children `post`
are; an enclosing Choice returns what its next alternative yields on the
unchanged state, and an enclosing Optional succeeds at the pre-sequence
position when the reason is `PP_ERROR_UNEXPECTED_TOK`. -/
theorem sequence_fails_at_first_failing_child (fuel : Nat) (state : pp_state_t)
    (pre post : List pp_parser_t) (c : pp_parser_t) (outs : List pp_output_t) (q : Nat)
    (rc : pp_result_t)
    (hpre : sequence_chain (pp.parse fuel) state.input state.pos pre outs q)
    (hc : pp.parse fuel c { input := state.input, pos := q } = some rc)
    (hfail : rc.status ≠ PP_OK) :
    pp.parse (fuel + 1) (pp_sequence (pre ++ c :: post)) state = some (pp.err q rc.status) ∧
    (∀ b rb, pp.parse (fuel + 1) b state = some rb → rb.status = PP_OK →
      pp.parse (fuel + 2) (pp_choice [pp_sequence (pre ++ c :: post), b]) state = some rb) ∧
    (rc.status = PP_ERROR_UNEXPECTED_TOK →
      pp.parse (fuel + 2) (pp_optional (pp_sequence (pre ++ c :: post))) state
        = some (pp.ok state.pos PP_OUTPUT_NONE state.pos)) := by
  have hseq : pp.parse (fuel + 1) (pp_sequence (pre ++ c :: post)) state
      = some (pp.err q rc.status) := by
    simp only [pp.parse, pp_sequence]
    exact sequence_loop_first_failure _ _ _ _ _ _ hpre c rc hc hfail post []
  refine ⟨hseq, ?_, ?_⟩
  · intro b rb hb hok
    have hne : (pp.err q rc.status).status ≠ PP_OK := hfail
    simp only [pp.parse, pp_choice, pp.choice_loop]
    simp only [pp.parse, pp_sequence] at hseq
    simp only [pp_sequence, hseq]
    rw [if_neg hne]
    simp only [pp.parse] at hb
    simp only [hb]
    rw [if_pos hok]
  · intro hs
    simp only [pp.parse, pp_optional]
    simp only [pp.parse, pp_sequence] at hseq
    simp only [pp_sequence, hseq]
    have : (pp.err q rc.status).status = PP_ERROR_UNEXPECTED_TOK := hs
    rw [if_pos this]
    rfl

theorem sequence_fails_at_first_failing_child_witness :
    sequence_chain (pp.parse 1) [97, 98] 0 [pp_any_of [97]] [PP_OUTPUT_CHAR 97] 1 ∧
    pp.parse 1 (pp_any_of [120]) ⟨[97, 98], 1⟩ = some (pp.err 1 PP_ERROR_UNEXPECTED_TOK) ∧
    pp.parse 2 (pp_sequence [pp_any_of [97], pp_any_of [120], pp_many pp_pure]) ⟨[97, 98], 0⟩
      = some (pp.err 1 PP_ERROR_UNEXPECTED_TOK) ∧
    pp.parse 3 (pp_choice [pp_sequence [pp_any_of [97], pp_any_of [120], pp_many pp_pure],
        pp_string [97, 98]]) ⟨[97, 98], 0⟩
      = some (pp.ok 2 (PP_OUTPUT_STRING [97, 98]) 2) ∧
    pp.parse 3 (pp_optional (pp_sequence [pp_any_of [97], pp_any_of [120], pp_many pp_pure]))
        ⟨[97, 98], 0⟩
      = some (pp.ok 0 PP_OUTPUT_NONE 0) :=
  have hchain : sequence_chain (pp.parse 1) [97, 98] 0 [pp_any_of [97]] [PP_OUTPUT_CHAR 97] 1 :=
    sequence_chain.cons 0 (pp_any_of [97]) [] (pp.ok 1 (PP_OUTPUT_CHAR 97) 1) [] 1 rfl rfl
      (sequence_chain.nil 1)
  have h := sequence_fails_at_first_failing_child 1 ⟨[97, 98], 0⟩ [pp_any_of [97]]
    [pp_many pp_pure] (pp_any_of [120]) [PP_OUTPUT_CHAR 97] 1
    (pp.err 1 PP_ERROR_UNEXPECTED_TOK) hchain rfl (by decide)
  ⟨hchain, rfl, h.1,
    h.2.1 (pp_string [97, 98]) (pp.ok 2 (PP_OUTPUT_STRING [97, 98]) 2) rfl rfl, h.2.2 rfl⟩

/-! ### Consumed text -/

theorem byteAt_of_drop_cons (input : List Nat) (pos b : Nat) (rest : List Nat)
    (h : input.drop pos = b :: rest) : byteAt input pos = b ∧ input.drop (pos + 1) = rest := by
  have h1 : byteAt (input.drop pos) 0 = byteAt input pos := by
    rw [byteAt_drop]; simp
  have h2 : input.drop (pos + 1) = (input.drop pos).drop 1 := by
    rw [List.drop_drop, Nat.add_comm]
  rw [h] at h1 h2
  exact ⟨h1.symm, by simpa using h2⟩

theorem input_slice_self (input : List Nat) (p : Nat) : input_slice input p p = [] := by
  simp [input_slice]

theorem input_slice_append (input : List Nat) (a b c : Nat) (hab : a ≤ b) (hbc : b ≤ c) :
    input_slice input a b ++ input_slice input b c = input_slice input a c := by
  have e : c - a = (b - a) + (c - b) := by omega
  have e2 : input.drop b = (input.drop a).drop (b - a) := by
    rw [List.drop_drop]; congr 1; omega
  simp only [input_slice]
  rw [e, List.take_add, e2]

theorem zero_not_mem_input_slice (input : List Nat) (h0 : 0 ∉ input) (p q : Nat) :
    0 ∉ input_slice input p q :=
  fun h => h0 (List.mem_of_mem_drop (List.mem_of_mem_take h))

theorem input_slice_one (input : List Nat) (pos : Nat) (h : pos + 1 ≤ input.length) :
    input_slice input pos (pos + 1) = [byteAt input pos] ∧ byteAt input pos ∈ input := by
  obtain ⟨b, rest, hd⟩ : ∃ b rest, input.drop pos = b :: rest := by
    cases hc : input.drop pos with
    | nil =>
      have := List.drop_eq_nil_iff.1 hc
      omega
    | cons b rest => exact ⟨b, rest, rfl⟩
  obtain ⟨hb, -⟩ := byteAt_of_drop_cons input pos b rest hd
  have hmem : b ∈ input := List.mem_of_mem_drop (by rw [hd]; simp)
  refine ⟨?_, hb ▸ hmem⟩
  simp [input_slice, hd, hb]

/-- A successful `strncmp` over `strlen(str)` bytes: the text of `str` starts `s`. -/
theorem strncmp_strlen_prefix (str : List Nat) :
    ∀ s, strncmp s str (strlen str) = 0 → pp_strdup str <+: s := by
  induction str with
  | nil => intro s _; simp [pp_strdup]
  | cons c cs ih =>
    intro s h
    by_cases hc : c = 0
    · simp [pp_strdup, List.takeWhile_cons, hc]
    · simp only [strlen, if_neg hc, strncmp, List.headD_cons, List.tail_cons] at h
      cases s with
      | nil =>
        simp only [List.headD_nil] at h
        have hne : (0 : Nat) ≠ c := fun e => hc e.symm
        rw [if_pos hne] at h
        omega
      | cons x s =>
        simp only [List.headD_cons, List.tail_cons] at h
        by_cases hx : x = c
        · subst hx
          simp only [ne_eq, not_true_eq_false, if_false, if_neg hc] at h
          have := ih s h
          simp only [pp_strdup] at this
          simp [pp_strdup, List.takeWhile_cons, hc, List.cons_prefix_cons, this]
        · rw [if_pos hx] at h
          omega

/-- A successful `strncasecmp` over `strlen(str)` bytes: `s` has that many
bytes before its terminator. -/
theorem strncasecmp_strlen_take (str : List Nat) :
    ∀ s, strncasecmp s str (strlen str) = 0 →
      (s.take (strlen str)).length = strlen str ∧ 0 ∉ s.take (strlen str) := by
  induction str with
  | nil => intro s _; simp [strlen]
  | cons c cs ih =>
    intro s h
    by_cases hc : c = 0
    · simp [strlen, hc]
    · simp only [strlen, if_neg hc, strncasecmp, List.headD_cons, List.tail_cons] at h ⊢
      have hlc : tolower c ≠ 0 := fun e => hc ((tolower_eq_zero_iff c).1 e)
      cases s with
      | nil =>
        simp only [List.headD_nil] at h
        have h0 : tolower 0 = 0 := rfl
        rw [h0] at h
        have hne : (0 : Nat) ≠ tolower c := fun e => hlc e.symm
        rw [if_pos hne] at h
        omega
      | cons x s =>
        simp only [List.headD_cons, List.tail_cons] at h
        by_cases hx : tolower x = tolower c
        · have hx0 : x ≠ 0 := by
            intro e
            rw [e] at hx
            exact hlc hx.symm
          simp only [hx, ne_eq, not_true_eq_false, if_false, if_neg hx0] at h
          obtain ⟨h1, h2⟩ := ih s h
          refine ⟨by simp [h1], ?_⟩
          simp only [List.take_succ_cons, List.mem_cons, not_or]
          exact ⟨fun e => hx0 e.symm, h2⟩
        · rw [if_pos hx] at h
          omega

theorem concat_string_char (b : Nat) (hb : b ≠ 0) :
    pp.concat_string (PP_OUTPUT_CHAR b) = PP_OUTPUT_STRING [b] := by
  simp [pp.concat_string, pp.string, pp_strndup, List.takeWhile_cons, hb]

theorem concat_string_none : pp.concat_string PP_OUTPUT_NONE = PP_OUTPUT_STRING [] := by
  simp [pp.concat_string, pp.string, pp_strndup]

/-- On an Array whose element texts have no NUL byte, `concat_string` is the
concatenation of the element texts. -/
theorem concat_string_array (outs : List pp_output_t)
    (h : 0 ∉ (pp.concat_string_elems outs).flatten) :
    pp.concat_string (PP_OUTPUT_ARRAY outs)
      = PP_OUTPUT_STRING (pp.concat_string_elems outs).flatten := by
  have hel : ∀ e ∈ pp.concat_string_elems outs, 0 ∉ e := fun e he h0 =>
    h (List.mem_flatten.2 ⟨e, he, h0⟩)
  have hmap : (pp.concat_string_elems outs).map pp_strdup = pp.concat_string_elems outs := by
    conv_rhs => rw [← List.map_id (pp.concat_string_elems outs)]
    exact List.map_congr_left (fun e he => pp_strdup_eq e (hel e he))
  have hsum : ((pp.concat_string_elems outs).map strlen).sum
      = (pp.concat_string_elems outs).flatten.length := by
    rw [List.length_flatten]
    congr 1
    exact List.map_congr_left (fun e he => strlen_eq_length e (hel e he))
  rw [pp.concat_string, pp.string, hmap, hsum, pp_strndup, List.take_length,
    takeWhile_ne_zero _ h]

theorem consumed_char (input : List Nat) (h0 : 0 ∉ input) (pos rest : Nat) :
    pos ≤ (pp.ok (pos + 1) (pp.chr (byteAt input pos)) rest).pos ∧
    ((pp.ok (pos + 1) (pp.chr (byteAt input pos)) rest).pos ≤ input.length →
      pp.concat_string (pp.ok (pos + 1) (pp.chr (byteAt input pos)) rest).output
        = PP_OUTPUT_STRING (input_slice input pos
            (pp.ok (pos + 1) (pp.chr (byteAt input pos)) rest).pos)) := by
  simp only [pp.ok, pp.chr]
  refine ⟨Nat.le_succ _, fun hle => ?_⟩
  obtain ⟨hs, hmem⟩ := input_slice_one input pos hle
  have hb : byteAt input pos ≠ 0 := fun e => h0 (e ▸ hmem)
  rw [concat_string_char _ hb, hs]

theorem consumed_nothing (input : List Nat) (pos rest : Nat) :
    pos ≤ (pp.ok pos pp.none rest).pos ∧
    ((pp.ok pos pp.none rest).pos ≤ input.length →
      pp.concat_string (pp.ok pos pp.none rest).output
        = PP_OUTPUT_STRING (input_slice input pos (pp.ok pos pp.none rest).pos)) := by
  simp only [pp.ok, pp.none]
  exact ⟨Nat.le_refl _, fun _ => by rw [concat_string_none, input_slice_self]⟩

theorem consumed_string (input : List Nat) (pos len rest : Nat)
    (h1 : ((input.drop pos).take len).length = len) (h2 : 0 ∉ (input.drop pos).take len) :
    pos ≤ (pp.ok (pos + len) (pp.string len (input.drop pos)) rest).pos ∧
    ((pp.ok (pos + len) (pp.string len (input.drop pos)) rest).pos ≤ input.length →
      pp.concat_string (pp.ok (pos + len) (pp.string len (input.drop pos)) rest).output
        = PP_OUTPUT_STRING (input_slice input pos
            (pp.ok (pos + len) (pp.string len (input.drop pos)) rest).pos)) := by
  simp only [pp.ok, pp.string]
  refine ⟨Nat.le_add_right _ _, fun _ => ?_⟩
  have e : pos + len - pos = len := by omega
  rw [pp.concat_string, pp_strndup, takeWhile_ne_zero _ h2, input_slice, e]

theorem choice_loop_ok_mem (run : pp_parser_t → pp_state_t → Option pp_result_t)
    (state : pp_state_t) (ps : List pp_parser_t) (r : pp_result_t)
    (h : pp.choice_loop run state ps = some r) (hok : r.status = PP_OK) :
    ∃ p ∈ ps, run p state = some r := by
  induction ps with
  | nil =>
    simp only [pp.choice_loop, Option.some.injEq] at h
    subst h
    simp [pp.err] at hok
  | cons p ps ih =>
    unfold pp.choice_loop at h
    cases hp : run p state with
    | none => simp [hp] at h
    | some res =>
      simp only [hp] at h
      by_cases hst : res.status = PP_OK
      · rw [if_pos hst] at h
        simp only [Option.some.injEq] at h
        subst h
        exact ⟨p, by simp, hp⟩
      · rw [if_neg hst] at h
        obtain ⟨p2, hmem, hrun⟩ := ih h
        exact ⟨p2, List.mem_cons_of_mem _ hmem, hrun⟩

theorem consumed_cons (input : List Nat) (pos mid q : Nat) (o : pp_output_t)
    (outs : List pp_output_t)
    (ho : pos ≤ mid ∧ (mid ≤ input.length →
      pp.concat_string o = PP_OUTPUT_STRING (input_slice input pos mid)))
    (houts : mid ≤ q ∧ (q ≤ input.length →
      (pp.concat_string_elems outs).flatten = input_slice input mid q)) :
    pos ≤ q ∧ (q ≤ input.length →
      (pp.concat_string_elems (o :: outs)).flatten = input_slice input pos q) := by
  refine ⟨le_trans ho.1 houts.1, fun hq => ?_⟩
  rw [pp.concat_string_elems, List.flatten_cons, ho.2 (le_trans houts.1 hq), houts.2 hq]
  exact input_slice_append input pos mid q ho.1 houts.1

theorem consumed_chain (run : pp_parser_t → pp_state_t → Option pp_result_t)
    (input : List Nat) (pos : Nat) (ps : List pp_parser_t) (outs : List pp_output_t) (q : Nat)
    (hchain : sequence_chain run input pos ps outs q)
    (hrun : ∀ p ∈ ps, ∀ pos r, run p ⟨input, pos⟩ = some r → r.status = PP_OK →
      pos ≤ r.pos ∧ (r.pos ≤ input.length →
        pp.concat_string r.output = PP_OUTPUT_STRING (input_slice input pos r.pos))) :
    pos ≤ q ∧ (q ≤ input.length →
      (pp.concat_string_elems outs).flatten = input_slice input pos q) := by
  induction hchain with
  | nil pos => exact ⟨Nat.le_refl _, fun _ => by simp [pp.concat_string_elems, input_slice_self]⟩
  | cons pos p ps r outs q hp hok _ ih =>
    exact consumed_cons input pos r.pos q r.output outs (hrun p (by simp) pos r hp hok)
      (ih (fun p2 hp2 => hrun p2 (List.mem_cons_of_mem _ hp2)))

theorem consumed_many_loop (run : pp_state_t → Option pp_result_t) (input : List Nat)
    (len : Nat)
    (hrun : ∀ pos r, run ⟨input, pos⟩ = some r → r.status = PP_OK →
      pos ≤ r.pos ∧ (r.pos ≤ input.length →
        pp.concat_string r.output = PP_OUTPUT_STRING (input_slice input pos r.pos)))
    (k : Nat) :
    ∀ (pos max_len : Nat) (acc : List pp_output_t) (q : Nat) (res : List pp_output_t),
      pp.many_loop run input len k pos max_len acc = some (q, res) →
      ∃ outs, res = acc ++ outs ∧ pos ≤ q ∧ (q ≤ input.length →
        (pp.concat_string_elems outs).flatten = input_slice input pos q) := by
  induction k with
  | zero => intro pos max_len acc q res h; simp [pp.many_loop] at h
  | succ k ih =>
    intro pos max_len acc q res h
    have hstop : ∃ outs, (acc : List pp_output_t) = acc ++ outs ∧ pos ≤ pos ∧
        (pos ≤ input.length →
          (pp.concat_string_elems outs).flatten = input_slice input pos pos) :=
      ⟨[], by simp, Nat.le_refl _, fun _ => by simp [pp.concat_string_elems, input_slice_self]⟩
    unfold pp.many_loop at h
    by_cases hlt : pos < len
    · rw [if_pos hlt] at h
      cases hr : run ⟨input, pos⟩ with
      | none => simp [hr] at h
      | some r =>
        simp only [hr] at h
        by_cases hst : r.status ≠ PP_OK
        · rw [if_pos hst] at h
          simp only [Option.some.injEq, Prod.mk.injEq] at h
          obtain ⟨rfl, rfl⟩ := h
          exact hstop
        · rw [if_neg hst] at h
          by_cases hfit : (acc.length + 1) * sizeof_pp_output_t
              ≤ pp.many_grow acc.length max_len * sizeof_pp_output_ptr
          · rw [if_pos hfit] at h
            obtain ⟨outs, hres, hgood⟩ := ih _ _ _ _ _ h
            refine ⟨r.output :: outs, by simp [hres], ?_⟩
            exact consumed_cons input pos r.pos q r.output outs
              (hrun pos r hr (not_not.mp hst)) hgood
          · rw [if_neg hfit] at h; simp at h
    · rw [if_neg hlt] at h
      simp only [Option.some.injEq, Prod.mk.injEq] at h
      obtain ⟨rfl, rfl⟩ := h
      exact hstop

theorem consumed_array (input : List Nat) (h0 : 0 ∉ input) (pos q rest : Nat)
    (outs : List pp_output_t)
    (h : pos ≤ q ∧ (q ≤ input.length →
      (pp.concat_string_elems outs).flatten = input_slice input pos q)) :
    pos ≤ (pp.ok q (PP_OUTPUT_ARRAY outs) rest).pos ∧
    ((pp.ok q (PP_OUTPUT_ARRAY outs) rest).pos ≤ input.length →
      pp.concat_string (pp.ok q (PP_OUTPUT_ARRAY outs) rest).output
        = PP_OUTPUT_STRING (input_slice input pos (pp.ok q (PP_OUTPUT_ARRAY outs) rest).pos)) := by
  simp only [pp.ok]
  refine ⟨h.1, fun hq => ?_⟩
  have hfl := h.2 hq
  rw [concat_string_array outs (by rw [hfl]; exact zero_not_mem_input_slice input h0 pos q), hfl]

theorem text_graph_consumed (input : List Nat) (h0 : 0 ∉ input) (fuel : Nat) :
    ∀ (parser : pp_parser_t), text_graph parser → ∀ (p : Nat) (r : pp_result_t),
      pp.parse fuel parser ⟨input, p⟩ = some r → r.status = PP_OK →
      p ≤ r.pos ∧ (r.pos ≤ input.length →
        pp.concat_string r.output = PP_OUTPUT_STRING (input_slice input p r.pos)) := by
  induction fuel with
  | zero => intro parser _ p r h; simp [pp.parse] at h
  | succ fuel ih =>
    intro parser hg p r h hok
    cases hg with
    | pure =>
      simp only [pp.parse, Option.some.injEq] at h
      subst h
      exact consumed_nothing input p p
    | eof =>
      simp only [pp.parse] at h
      split at h
      · simp only [Option.some.injEq] at h
        subst h
        exact consumed_nothing input p p
      · simp only [Option.some.injEq] at h
        subst h
        simp [pp.err] at hok
    | chr c =>
      simp only [pp.parse] at h
      split at h
      · simp only [Option.some.injEq] at h
        subst h
        exact consumed_char input h0 p (p + 1)
      · simp only [Option.some.injEq] at h
        subst h
        simp [pp.err] at hok
    | any_of chars =>
      simp only [pp.parse] at h
      split at h
      · simp only [Option.some.injEq] at h
        subst h
        exact consumed_char input h0 p (p + 1)
      · simp only [Option.some.injEq] at h
        subst h
        simp [pp.err] at hok
    | none_of chars =>
      simp only [pp.parse] at h
      split at h
      · simp only [Option.some.injEq] at h
        subst h
        exact consumed_char input h0 p (p + 1)
      · simp only [Option.some.injEq] at h
        subst h
        simp [pp.err] at hok
    | string s =>
      simp only [pp.parse] at h
      split at h
      · rename_i hcmp
        simp only [Option.some.injEq] at h
        subst h
        have hpre := strncmp_strlen_prefix s _ hcmp
        have htake : (input.drop p).take (strlen s) = pp_strdup s := by
          rw [strlen_eq_pp_strdup_length]
          exact List.prefix_iff_eq_take.1 hpre |>.symm
        refine consumed_string input p (strlen s) _ ?_ ?_
        · rw [htake, strlen_eq_pp_strdup_length]
        · rw [htake]; exact zero_not_mem_pp_strdup s
      · simp only [Option.some.injEq] at h
        subst h
        simp [pp.err] at hok
    | string_no_case s =>
      simp only [pp.parse] at h
      split at h
      · rename_i hcmp
        simp only [Option.some.injEq] at h
        subst h
        obtain ⟨h1, h2⟩ := strncasecmp_strlen_take s _ hcmp
        exact consumed_string input p (strlen s) _ h1 h2
      · simp only [Option.some.injEq] at h
        subst h
        simp [pp.err] at hok
    | optional child hchild =>
      simp only [pp.parse] at h
      cases hc : pp.parse fuel child ⟨input, p⟩ with
      | none => simp [hc] at h
      | some res =>
        simp only [hc] at h
        split at h
        · simp only [Option.some.injEq] at h
          subst h
          exact consumed_nothing input p p
        · simp only [Option.some.injEq] at h
          subst h
          exact ih child hchild p res hc hok
    | choice ps hps =>
      simp only [pp.parse] at h
      obtain ⟨c, hmem, hrun⟩ := choice_loop_ok_mem _ _ _ _ h hok
      exact ih c (hps c hmem) p r hrun hok
    | many child hchild =>
      simp only [pp.parse] at h
      cases hl : pp.many_loop (pp.parse fuel child) input (strlen input) fuel p 4096 [] with
      | none => simp [hl] at h
      | some x =>
        obtain ⟨q, res⟩ := x
        simp only [hl, Option.some.injEq] at h
        subst h
        obtain ⟨outs, hres, hgood⟩ := consumed_many_loop (pp.parse fuel child) input
          (strlen input) (fun pos r => ih child hchild pos r) fuel p 4096 [] q res hl
        simp only [List.nil_append] at hres
        subst hres
        simp only [pp.array, List.take_length]
        exact consumed_array input h0 p q p res hgood
    | sequence ps hps =>
      simp only [pp.parse] at h
      obtain ⟨outs, q, hchain, hr⟩ :=
        (sequence_loop_ok_iff (pp.parse fuel) input ps p [] r).1 ⟨h, hok⟩
      simp only [List.nil_append] at hr
      subst hr
      exact consumed_array input h0 p q q outs
        (consumed_chain (pp.parse fuel) input p ps outs q hchain
          (fun c hc pos r => ih c (hps c hc) pos r))

/-- C22: for every parser graph built only from Pure, Eof, Literal, String
(either case mode), CharsetMember, CharsetNonMember, Optional, Choice, Many
and Sequence, every input (a C string) and every start position `p`: if
`parse` succeeds with end position `q ≤ len(input)` then `p ≤ q` and
`concat_string` applied to the output is the String of the input bytes from
`p` up to `q`. -/
theorem consumed_text_round_trip (fuel : Nat) (parser : pp_parser_t) (input : List Nat)
    (p : Nat) (r : pp_result_t) (hgraph : text_graph parser) (h0 : 0 ∉ input)
    (h : pp.parse fuel parser ⟨input, p⟩ = some r) (hok : r.status = PP_OK)
    (hq : r.pos ≤ strlen input) :
    p ≤ r.pos ∧
    pp.concat_string r.output = PP_OUTPUT_STRING ((input.drop p).take (r.pos - p)) := by
  rw [strlen_eq_length input h0] at hq
  obtain ⟨h1, h2⟩ := text_graph_consumed input h0 fuel parser hgraph p r h hok
  exact ⟨h1, h2 hq⟩

theorem consumed_text_round_trip_witness :
    text_graph (pp_sequence [pp_many (pp_any_of [48, 49, 50, 51, 52, 53, 54, 55, 56, 57]),
      pp_optional (pp_string_no_case [120]), pp_choice [PP_OP_CHAR 33, pp_none_of [44]],
      pp_eof]) ∧
    0 ∉ [52, 50, 88, 33] ∧
    pp.parse 6 (pp_sequence [pp_many (pp_any_of [48, 49, 50, 51, 52, 53, 54, 55, 56, 57]),
      pp_optional (pp_string_no_case [120]), pp_choice [PP_OP_CHAR 33, pp_none_of [44]],
      pp_eof]) ⟨[52, 50, 88, 33], 0⟩
      = some (pp.ok 4 (PP_OUTPUT_ARRAY [PP_OUTPUT_ARRAY [PP_OUTPUT_CHAR 52, PP_OUTPUT_CHAR 50],
          PP_OUTPUT_STRING [88], PP_OUTPUT_CHAR 33, PP_OUTPUT_NONE]) 4) ∧
    4 ≤ strlen [52, 50, 88, 33] ∧
    0 ≤ 4 ∧
    pp.concat_string (PP_OUTPUT_ARRAY [PP_OUTPUT_ARRAY [PP_OUTPUT_CHAR 52, PP_OUTPUT_CHAR 50],
        PP_OUTPUT_STRING [88], PP_OUTPUT_CHAR 33, PP_OUTPUT_NONE])
      = PP_OUTPUT_STRING [52, 50, 88, 33] := by
  have hg : text_graph (pp_sequence [pp_many (pp_any_of [48, 49, 50, 51, 52, 53, 54, 55, 56, 57]),
      pp_optional (pp_string_no_case [120]), pp_choice [PP_OP_CHAR 33, pp_none_of [44]],
      pp_eof]) := by
    refine text_graph.sequence _ ?_
    intro c hc
    simp only [List.mem_cons, List.mem_singleton, List.not_mem_nil, or_false] at hc
    rcases hc with rfl | rfl | rfl | rfl
    · exact text_graph.many _ (text_graph.any_of _)
    · exact text_graph.optional _ (text_graph.string_no_case _)
    · refine text_graph.choice _ ?_
      intro d hd
      simp only [List.mem_cons, List.mem_singleton, List.not_mem_nil, or_false] at hd
      rcases hd with rfl | rfl
      · exact text_graph.chr _
      · exact text_graph.none_of _
    · exact text_graph.eof
  have h := consumed_text_round_trip 6 _ [52, 50, 88, 33] 0
    (pp.ok 4 (PP_OUTPUT_ARRAY [PP_OUTPUT_ARRAY [PP_OUTPUT_CHAR 52, PP_OUTPUT_CHAR 50],
      PP_OUTPUT_STRING [88], PP_OUTPUT_CHAR 33, PP_OUTPUT_NONE]) 4) hg (by decide) rfl rfl
    (by decide)
  exact ⟨hg, by decide, rfl, by decide, h.1, h.2⟩

/-! ### The scratch buffer of Many -/

/-- When the child, at each of the first `1366` iterations, succeeds and
advances by `step` (or has no result), the loop of `Many` has no result,
whatever the fuel: the store of the 1366th output does not lie in the block
of `4096 * sizeof(pp_output_t*)` bytes. -/
theorem many_loop_overflow (run : pp_state_t → Option pp_result_t) (input : List Nat)
    (len p0 step : Nat)
    (hrun : ∀ i, i ≤ 1365 → p0 + i * step < len ∧
      (run ⟨input, p0 + i * step⟩ = Option.none ∨
        ∃ r, run ⟨input, p0 + i * step⟩ = some r ∧ r.status = PP_OK ∧
          r.pos = p0 + (i + 1) * step))
    (fuel : Nat) :
    ∀ (j : Nat) (outputs : List pp_output_t), outputs.length = j → j ≤ 1365 →
      pp.many_loop run input len fuel (p0 + j * step) 4096 outputs = Option.none := by
  induction fuel with
  | zero => intro j outputs _ _; rfl
  | succ fuel ih =>
    intro j outputs hlen hj
    obtain ⟨hlt, hres⟩ := hrun j hj
    unfold pp.many_loop
    rw [if_pos hlt]
    rcases hres with hnone | ⟨r, hr, hok, hpos⟩
    · simp only [hnone]
    · simp only [hr]
      rw [if_neg (not_not.mpr hok)]
      have hgrow : pp.many_grow outputs.length 4096 = 4096 := by
        simp only [pp.many_grow]
        rw [if_neg (by omega)]
      rw [hgrow]
      by_cases hfit : (outputs.length + 1) * sizeof_pp_output_t ≤ 4096 * sizeof_pp_output_ptr
      · rw [if_pos hfit, hpos]
        simp only [sizeof_pp_output_t, sizeof_pp_output_ptr] at hfit
        exact ih (j + 1) (outputs ++ [r.output]) (by simp [hlen]) (by omega)
      · rw [if_neg hfit]

theorem byteAt_replicate_append (n c : Nat) (rest : List Nat) (i : Nat) (h : i < n) :
    byteAt (List.replicate n c ++ rest) i = c := by
  simp only [byteAt, List.getD_eq_getElem?_getD]
  rw [List.getElem?_append_left (by simpa using h)]
  simp [h]

theorem byteAt_replicate (n c i : Nat) (h : i < n) : byteAt (List.replicate n c) i = c := by
  have := byteAt_replicate_append n c [] i h
  rwa [List.append_nil] at this

theorem strlen_replicate_append (n c : Nat) (rest : List Nat) (hc : c ≠ 0) (h0 : 0 ∉ rest) :
    strlen (List.replicate n c ++ rest) = n + rest.length := by
  rw [strlen_eq_length]
  · simp
  · intro h
    rcases List.mem_append.1 h with h | h
    · exact hc (List.eq_of_mem_replicate h).symm
    · exact h0 h

theorem strlen_replicate (n c : Nat) (hc : c ≠ 0) : strlen (List.replicate n c) = n := by
  have := strlen_replicate_append n c [] hc (List.not_mem_nil 0)
  rwa [List.append_nil, List.length_nil, Nat.add_zero] at this

/-- C21, evaluation at the failing input: on the input of `1366` bytes `'a'`,
`Many(CharsetMember("a"))` from position `0` has no result whatever the fuel:
its child succeeds and advances by one at every position, and the store of
the 1366th output lies past the scratch buffer, which has room for `1365`.
On `"aaa"` the same parser returns the Array of three Characters. -/
theorem many_overflows_scratch_buffer :
    (∀ fuel, pp.parse fuel (pp_many (pp_any_of [97])) ⟨List.replicate 1366 97, 0⟩
      = Option.none) ∧
    strlen (List.replicate 1366 97) = 1366 ∧
    1365 * sizeof_pp_output_t ≤ 4096 * sizeof_pp_output_ptr ∧
    4096 * sizeof_pp_output_ptr < 1366 * sizeof_pp_output_t ∧
    pp.parse 5 (pp_many (pp_any_of [97])) ⟨[97, 97, 97], 0⟩
      = some (pp.ok 3 (PP_OUTPUT_ARRAY [PP_OUTPUT_CHAR 97, PP_OUTPUT_CHAR 97,
          PP_OUTPUT_CHAR 97]) 0) := by
  have hlen : strlen (List.replicate 1366 97) = 1366 := strlen_replicate 1366 97 (by decide)
  refine ⟨?_, hlen, by decide, by decide, rfl⟩
  intro fuel
  cases fuel with
  | zero => rfl
  | succ fuel =>
    simp only [pp_many]
    rw [pp.parse]
    have hloop := many_loop_overflow (pp.parse fuel (pp_any_of [97])) (List.replicate 1366 97)
      (strlen (List.replicate 1366 97)) 0 1 ?_ fuel 0 [] rfl (by omega)
    · simp only [Nat.zero_mul, Nat.add_zero] at hloop
      simp only [hloop]
    · intro i hi
      refine ⟨by rw [hlen]; omega, ?_⟩
      cases fuel with
      | zero => exact Or.inl rfl
      | succ f =>
        right
        have hb : byteAt (List.replicate 1366 97) (0 + i * 1) = 97 :=
          byteAt_replicate 1366 97 (0 + i * 1) (by omega)
        refine ⟨pp.ok (0 + i * 1 + 1) (PP_OUTPUT_CHAR 97) (0 + i * 1 + 1), ?_, rfl, ?_⟩
        · have hdup : pp_strdup [97] = [97] := by decide
          simp only [pp_any_of, hdup, pp.parse, hb, pp.chr]
          rw [if_pos (by decide)]
        · simp only [pp.ok]; omega

/-- C16, evaluation at the failing input: on the input of `1366` spaces
followed by `"x"`, `pp_whitespace_delimited(p)` has no result whatever the
parser `p` and the fuel: the leading `pp_skip_whitespace` is a `Many` over
the whitespace charset, which matches `1366` times and stores its 1366th
output past its scratch buffer. -/
theorem whitespace_delimited_overflows (p : pp_parser_t) (fuel : Nat) :
    pp.parse fuel (pp_whitespace_delimited p) ⟨List.replicate 1366 32 ++ [120], 0⟩
      = Option.none := by
  have hlen : strlen (List.replicate 1366 32 ++ [120]) = 1367 :=
    strlen_replicate_append 1366 32 [120] (by decide) (by decide)
  have hmany : ∀ f, pp.parse f pp_whitespace ⟨List.replicate 1366 32 ++ [120], 0⟩
      = Option.none := by
    intro f
    cases f with
    | zero => rfl
    | succ f =>
      simp only [pp_whitespace, pp_many]
      rw [pp.parse]
      have hloop := many_loop_overflow (pp.parse f (pp_any_of [32, 9, 10, 13]))
        (List.replicate 1366 32 ++ [120]) (strlen (List.replicate 1366 32 ++ [120])) 0 1 ?_
        f 0 [] rfl (by omega)
      · simp only [Nat.zero_mul, Nat.add_zero] at hloop
        simp only [hloop]
      · intro i hi
        refine ⟨by rw [hlen]; omega, ?_⟩
        cases f with
        | zero => exact Or.inl rfl
        | succ f =>
          right
          have hb : byteAt (List.replicate 1366 32 ++ [120]) (0 + i * 1) = 32 :=
            byteAt_replicate_append 1366 32 [120] (0 + i * 1) (by omega)
          refine ⟨pp.ok (0 + i * 1 + 1) (PP_OUTPUT_CHAR 32) (0 + i * 1 + 1), ?_, rfl, ?_⟩
          · have hdup : pp_strdup [32, 9, 10, 13] = [32, 9, 10, 13] := by decide
            simp only [pp_any_of, hdup, pp.parse, hb, pp.chr]
            rw [if_pos (by decide)]
          · simp only [pp.ok]; omega
  have hskip : ∀ f, pp.parse f pp_skip_whitespace ⟨List.replicate 1366 32 ++ [120], 0⟩
      = Option.none := by
    intro f
    cases f with
    | zero => rfl
    | succ f =>
      simp only [pp_skip_whitespace, pp_map]
      rw [pp.parse]
      simp only [hmany f]
  cases fuel with
  | zero => rfl
  | succ fuel =>
    simp only [pp_whitespace_delimited, pp_select, pp_map]
    rw [pp.parse]
    cases fuel with
    | zero => rfl
    | succ fuel =>
      simp only [pp_sequence]
      rw [pp.parse]
      simp only [pp.sequence_loop, hskip fuel]

/-! ### Separated list of more items than the scratch buffer of Many holds -/

theorem items_flatten_drop (n : Nat) :
    ∀ i, i ≤ n → ((List.replicate n [44, 97]).flatten).drop (i * 2)
      = (List.replicate (n - i) [44, 97]).flatten := by
  induction n with
  | zero => intro i hi; have : i = 0 := by omega
            subst this; rfl
  | succ n ih =>
    intro i hi
    cases i with
    | zero => rfl
    | succ i =>
      have e : (i + 1) * 2 = i * 2 + 1 + 1 := by omega
      rw [e, List.replicate_succ, List.flatten_cons]
      have := ih i (by omega)
      simpa using this

theorem items_drop (n i : Nat) (h : i < n) :
    (97 :: (List.replicate n [44, 97]).flatten).drop (1 + i * 2)
      = 44 :: 97 :: (List.replicate (n - i - 1) [44, 97]).flatten := by
  have e : 1 + i * 2 = i * 2 + 1 := by omega
  rw [e, List.drop_succ_cons, items_flatten_drop n i (by omega)]
  obtain ⟨k, hk⟩ : ∃ k, n - i = k + 1 := ⟨n - i - 1, by omega⟩
  have hk2 : n - i - 1 = k := by omega
  rw [hk2, hk, List.replicate_succ, List.flatten_cons]
  rfl

theorem items_strlen (n : Nat) :
    strlen (97 :: (List.replicate n [44, 97]).flatten) = 1 + n * 2 := by
  rw [strlen_eq_length]
  · simp only [List.length_cons, List.length_flatten, List.map_replicate, List.sum_replicate,
      List.length_nil, Nat.zero_add, smul_eq_mul]
    omega
  · intro h
    simp only [List.mem_cons, List.mem_flatten] at h
    rcases h with h | ⟨l, hl, h0⟩
    · omega
    · rw [List.eq_of_mem_replicate hl] at h0
      simp at h0

theorem string_one_byte (f c : Nat) (input : List Nat) (e : Nat) (rest : List Nat)
    (hc : c ≠ 0) (h : input.drop e = c :: rest) :
    pp.parse (f + 1) (pp_string [c]) ⟨input, e⟩
      = some (pp.ok (e + 1) (PP_OUTPUT_STRING [c]) (e + 1)) := by
  have hdup : pp_strdup [c] = [c] := pp_strdup_eq [c] (by simpa using fun h => hc h.symm)
  simp [pp_string, hdup, pp.parse, h, strlen, hc, strncmp, pp.string, pp_strndup,
    List.takeWhile_cons]

theorem select_sep_item (F : Nat) (input : List Nat) (e : Nat) (rest : List Nat)
    (h : input.drop e = 44 :: 97 :: rest) :
    pp.parse F (pp_select (pp_sequence [pp_string [44], pp_string [97]]) 0) ⟨input, e⟩
        = Option.none ∨
    ∃ r, pp.parse F (pp_select (pp_sequence [pp_string [44], pp_string [97]]) 0) ⟨input, e⟩
        = some r ∧ r.status = PP_OK ∧ r.pos = e + 2 := by
  have h2 : input.drop (e + 1) = 97 :: rest := (byteAt_of_drop_cons input e 44 _ h).2
  simp only [pp_select, pp_map]
  cases F with
  | zero => exact Or.inl rfl
  | succ F =>
    rw [pp.parse]
    cases F with
    | zero => exact Or.inl rfl
    | succ F =>
      simp only [pp_sequence]
      rw [pp.parse]
      cases F with
      | zero => exact Or.inl rfl
      | succ F =>
        right
        refine ⟨pp.ok (e + 2) (PP_OUTPUT_STRING [97]) (e + 2), ?_, rfl, rfl⟩
        simp [pp.sequence_loop, string_one_byte F 44 input e _ (by decide) h,
          string_one_byte F 97 input (e + 1) _ (by decide) h2, pp.ok, pp.array, pp.select]

/-- C15, evaluation at the failing input: on the input `"a,a,...,a"` of `1367`
items `"a"` separated by `","`, `pp_separated_list(pp_string("a"),
pp_string(","))` has no result whatever the fuel: its `Many` over
separator-then-item matches `1366` times and stores its 1366th output past
its scratch buffer.  On `"a,a"` the same parser returns the Array of two
Strings. -/
theorem separated_list_overflows :
    (∀ fuel, pp.parse fuel (pp_separated_list (pp_string [97]) (pp_string [44]))
      ⟨97 :: (List.replicate 1366 [44, 97]).flatten, 0⟩ = Option.none) ∧
    pp.parse 7 (pp_separated_list (pp_string [97]) (pp_string [44])) ⟨[97, 44, 97], 0⟩
      = some (pp.ok 3 (PP_OUTPUT_ARRAY [PP_OUTPUT_STRING [97], PP_OUTPUT_STRING [97]]) 3) := by
  refine ⟨?_, rfl⟩
  intro fuel
  have hitem : ∀ f, pp.parse (f + 1) (pp_string [97])
      ⟨97 :: (List.replicate 1366 [44, 97]).flatten, 0⟩
      = some (pp.ok 1 (PP_OUTPUT_STRING [97]) 1) := fun f =>
    string_one_byte f 97 _ 0 _ (by decide) rfl
  have hmany : ∀ f, pp.parse f
      (pp_many (pp_select (pp_sequence [pp_string [44], pp_string [97]]) 0))
      ⟨97 :: (List.replicate 1366 [44, 97]).flatten, 1⟩ = Option.none := by
    intro f
    cases f with
    | zero => rfl
    | succ f =>
      simp only [pp_many]
      rw [pp.parse]
      have hloop := many_loop_overflow
        (pp.parse f (pp_select (pp_sequence [pp_string [44], pp_string [97]]) 0))
        (97 :: (List.replicate 1366 [44, 97]).flatten)
        (strlen (97 :: (List.replicate 1366 [44, 97]).flatten)) 1 2 ?_ f 0 [] rfl (by omega)
      · simp only [Nat.zero_mul, Nat.add_zero] at hloop
        simp only [hloop]
      · intro i hi
        refine ⟨by rw [items_strlen]; omega, ?_⟩
        rcases select_sep_item f _ (1 + i * 2) _ (items_drop 1366 i (by omega)) with h | h
        · exact Or.inl h
        · obtain ⟨r, hr, hok, hpos⟩ := h
          exact Or.inr ⟨r, hr, hok, by rw [hpos]; omega⟩
  cases fuel with
  | zero => rfl
  | succ fuel =>
    simp only [pp_separated_list, pp_concat_array, pp_map]
    rw [pp.parse]
    cases fuel with
    | zero => rfl
    | succ fuel =>
      rw [show pp_sequence [pp_string [97],
          pp_many (pp_select (pp_sequence [pp_string [44], pp_string [97]]) 0)]
        = PP_OP_SEQUENCE [pp_string [97],
          pp_many (pp_select (pp_sequence [pp_string [44], pp_string [97]]) 0)] from rfl]
      rw [pp.parse]
      cases fuel with
      | zero => rfl
      | succ fuel =>
        simp only [pp.sequence_loop, hitem fuel]
        have hst : ¬ (pp.ok 1 (PP_OUTPUT_STRING [97]) 1).status ≠ PP_OK := by simp [pp.ok]
        rw [if_neg hst]
        simp only [pp.ok, hmany (fuel + 1)]
